import Mathlib

/-!
Verification of the persistence and authorization core (src/data.rs) and the
federation access gate (src/api/server/utils.rs) of this homeserver.

The underlying sled store is modelled as an association list over byte-string
keys, kept strictly sorted in byte-lexicographic order (the order sled uses for
`get_gt` / `get_lt` / `scan_prefix`).  Bytes are natural numbers; the 0xff
delimiter of the key encoding is the literal 255.  Machine integers (the u64
stream counter and index suffixes) are natural numbers, reduced mod 2^64 when
they are serialized into fixed-width big-endian key bytes.
-/

namespace Conduit

/-- Byte strings: the keys and identifier payloads of the store. -/
abbrev Bytes := List Nat

/-- Bytes of an ASCII string literal (identifiers contain no 0xff byte). -/
def strBytes (s : String) : Bytes := s.data.map Char.toNat

/-- Strict byte-lexicographic order on byte strings: a strict prefix is
smaller, as with Rust byte-slice / sled key ordering. -/
def lexLt : Bytes → Bytes → Bool
  | [], [] => false
  | [], _ :: _ => true
  | _ :: _, [] => false
  | a :: as, b :: bs => decide (a < b) || (decide (a = b) && lexLt as bs)

@[simp] theorem lexLt_nil_nil : lexLt [] [] = false := rfl

@[simp] theorem lexLt_nil_cons (b : Nat) (bs : Bytes) : lexLt [] (b :: bs) = true := rfl

@[simp] theorem lexLt_cons_nil (a : Nat) (as : Bytes) : lexLt (a :: as) [] = false := rfl

theorem lexLt_cons_cons (a b : Nat) (as bs : Bytes) :
    lexLt (a :: as) (b :: bs) = (decide (a < b) || (decide (a = b) && lexLt as bs)) := rfl

theorem lexLt_irrefl (a : Bytes) : lexLt a a = false := by
  induction a with
  | nil => rfl
  | cons x xs ih => simp [lexLt_cons_cons, ih]

theorem lexLt_trans {a b c : Bytes} (h1 : lexLt a b = true) (h2 : lexLt b c = true) :
    lexLt a c = true := by
  induction a generalizing b c with
  | nil =>
    cases b with
    | nil => simp at h1
    | cons y ys =>
      cases c with
      | nil => simp at h2
      | cons z zs => simp
  | cons x xs ih =>
    cases b with
    | nil => simp at h1
    | cons y ys =>
      cases c with
      | nil => simp at h2
      | cons z zs =>
        simp only [lexLt_cons_cons, Bool.or_eq_true, Bool.and_eq_true, decide_eq_true_eq] at *
        rcases h1 with h1 | ⟨h1e, h1r⟩ <;> rcases h2 with h2 | ⟨h2e, h2r⟩
        · exact Or.inl (h1.trans h2)
        · exact Or.inl (h2e ▸ h1)
        · exact Or.inl (h1e ▸ h2)
        · exact Or.inr ⟨h1e.trans h2e, ih h1r h2r⟩

theorem lexLt_total {a b : Bytes} (h : a ≠ b) : lexLt a b = true ∨ lexLt b a = true := by
  induction a generalizing b with
  | nil =>
    cases b with
    | nil => exact absurd rfl h
    | cons y ys => exact Or.inl rfl
  | cons x xs ih =>
    cases b with
    | nil => exact Or.inr rfl
    | cons y ys =>
      by_cases hxy : x = y
      · subst hxy
        have hne : xs ≠ ys := fun hh => h (by rw [hh])
        rcases ih hne with h1 | h1
        · exact Or.inl (by simp [lexLt_cons_cons, h1])
        · exact Or.inr (by simp [lexLt_cons_cons, h1])
      · rcases Nat.lt_or_ge x y with hlt | hge
        · exact Or.inl (by simp [lexLt_cons_cons, hlt])
        · have hlt : y < x := lt_of_le_of_ne hge (fun hh => hxy hh.symm)
          exact Or.inr (by simp [lexLt_cons_cons, hlt])

theorem lexLt_asymm {a b : Bytes} (h : lexLt a b = true) : lexLt b a = false := by
  by_contra hc
  have hba : lexLt b a = true := by
    cases hh : lexLt b a with
    | false => exact absurd hh hc
    | true => rfl
  have := lexLt_trans h hba
  rw [lexLt_irrefl] at this
  exact Bool.false_ne_true this

theorem lexLt_ne {a b : Bytes} (h : lexLt a b = true) : a ≠ b := by
  intro he; subst he; rw [lexLt_irrefl] at h; exact Bool.false_ne_true h

/-- Appending a common prefix on the left preserves the comparison. -/
theorem lexLt_append_left (p a b : Bytes) : lexLt (p ++ a) (p ++ b) = lexLt a b := by
  induction p with
  | nil => rfl
  | cons x xs ih => simp [lexLt_cons_cons, ih]

/-- A proper extension of a byte string is strictly greater. -/
theorem lexLt_self_append (a r : Bytes) : lexLt a (a ++ r) = !r.isEmpty := by
  induction a with
  | nil => cases r <;> rfl
  | cons x xs ih => simp [lexLt_cons_cons, ih]

/-- Comparing equal-length byte strings ignores any extension of the right
operand unless the two agree, in which case a nonempty extension wins. -/
theorem lexLt_append_right_of_length_eq {a b : Bytes} (r : Bytes) (h : a.length = b.length) :
    lexLt a (b ++ r) = (lexLt a b || (decide (a = b) && !r.isEmpty)) := by
  induction a generalizing b with
  | nil =>
    cases b with
    | nil => cases r <;> simp [lexLt]
    | cons y ys => simp at h
  | cons x xs ih =>
    cases b with
    | nil => simp at h
    | cons y ys =>
      simp only [List.length_cons, Nat.succ.injEq] at h
      by_cases hxy : x = y
      · subst hxy
        simp [lexLt_cons_cons, ih h, List.cons_eq_cons, Bool.and_or_distrib_left]
      · simp [lexLt_cons_cons, hxy]

/-- Byte strings sharing a common prefix are contiguous in lexicographic
order: anything strictly between two of them also carries the prefix. -/
theorem lexLt_prefix_between {p a b c : Bytes} (hab : lexLt a b = true)
    (hbc : lexLt b c = true) (ha : p <+: a) (hc : p <+: c) : p <+: b := by
  induction p generalizing a b c with
  | nil => exact List.nil_prefix
  | cons x xs ih =>
    obtain ⟨ta, hta⟩ := ha
    obtain ⟨tc, htc⟩ := hc
    cases b with
    | nil => subst hta; simp at hab
    | cons y ys =>
      subst hta htc
      simp only [List.cons_append, lexLt_cons_cons, Bool.or_eq_true, Bool.and_eq_true,
        decide_eq_true_eq] at hab hbc
      rcases hab with hab | ⟨habe, habr⟩
      · rcases hbc with hbc | ⟨hbce, hbcr⟩
        · omega
        · omega
      · rcases hbc with hbc | ⟨hbce, hbcr⟩
        · omega
        · subst habe
          have : xs <+: ys := ih habr hbcr ⟨ta, rfl⟩ ⟨tc, rfl⟩
          obtain ⟨t, ht⟩ := this
          exact ⟨t, by rw [← ht]; rfl⟩

/-- Big-endian byte serialization of a natural number into `w` bytes
(the value is reduced mod `256 ^ w`). -/
def beBytes : Nat → Nat → Bytes
  | 0, _ => []
  | w + 1, n => (n / 256 ^ w % 256) :: beBytes w n

/-- The 8-byte big-endian encoding used for u64 ordinals in keys. -/
def be8 (n : Nat) : Bytes := beBytes 8 n

@[simp] theorem beBytes_length (w n : Nat) : (beBytes w n).length = w := by
  induction w generalizing n with
  | zero => rfl
  | succ w ih => simp [beBytes, ih]

@[simp] theorem be8_length (n : Nat) : (be8 n).length = 8 := beBytes_length 8 n

theorem mod_mul_decompose (n d e : Nat) (hd : 0 < d) (he : 0 < e) :
    n % (d * e) = d * (n / d % e) + n % d := by
  conv_lhs => rw [← Nat.mod_add_div n d]
  conv_lhs => rw [← Nat.mod_add_div (n / d) e]
  have h1 : n % d + d * (n / d % e + e * (n / d / e)) =
      (n % d + d * (n / d % e)) + (n / d / e) * (d * e) := by ring
  rw [h1, Nat.add_mul_mod_self_right]
  have h2 : n % d + d * (n / d % e) < d * e := by
    have hb1 : n % d < d := Nat.mod_lt _ hd
    have hb2 : n / d % e < e := Nat.mod_lt _ he
    calc n % d + d * (n / d % e) < d + d * (n / d % e) := by omega
    _ = d * (n / d % e + 1) := by ring
    _ ≤ d * e := Nat.mul_le_mul_left d (by omega)
  rw [Nat.mod_eq_of_lt h2]
  omega

theorem block_lt_iff (d A B ra rb : Nat) (hra : ra < d) (hrb : rb < d) :
    (d * A + ra < d * B + rb) ↔ (A < B ∨ (A = B ∧ ra < rb)) := by
  constructor
  · intro h
    rcases Nat.lt_trichotomy A B with hab | hab | hab
    · exact Or.inl hab
    · subst hab; exact Or.inr ⟨rfl, by omega⟩
    · exfalso
      have h2 : d * (B + 1) ≤ d * A := Nat.mul_le_mul_left d (by omega)
      have h3 : d * (B + 1) = d * B + d := by ring
      omega
  · rintro (hab | ⟨hab, hr⟩)
    · have h2 : d * (A + 1) ≤ d * B := Nat.mul_le_mul_left d (by omega)
      have h3 : d * (A + 1) = d * A + d := by ring
      omega
    · subst hab; omega

/-- Lexicographic comparison of equal-width big-endian encodings is numeric
comparison of the values mod `256 ^ w`. -/
theorem lexLt_beBytes (w a b : Nat) :
    lexLt (beBytes w a) (beBytes w b) = decide (a % 256 ^ w < b % 256 ^ w) := by
  induction w generalizing a b with
  | zero => simp [beBytes, Nat.mod_one]
  | succ w ih =>
    have hd : (0 : Nat) < 256 ^ w := Nat.pos_pow_of_pos w (by omega)
    have hdecomp : ∀ n : Nat, n % 256 ^ (w + 1) = 256 ^ w * (n / 256 ^ w % 256) + n % 256 ^ w := by
      intro n
      have := mod_mul_decompose n (256 ^ w) 256 hd (by omega)
      rw [← Nat.pow_succ] at this
      exact this
    rw [beBytes, beBytes, lexLt_cons_cons, ih, hdecomp a, hdecomp b]
    have hra : a % 256 ^ w < 256 ^ w := Nat.mod_lt _ hd
    have hrb : b % 256 ^ w < 256 ^ w := Nat.mod_lt _ hd
    have hiff := block_lt_iff (256 ^ w) (a / 256 ^ w % 256) (b / 256 ^ w % 256)
      (a % 256 ^ w) (b % 256 ^ w) hra hrb
    rcases Nat.lt_trichotomy (a / 256 ^ w % 256) (b / 256 ^ w % 256) with h1 | h1 | h1
    · have h2 := hiff.mpr (Or.inl h1)
      simp [h1, h2]
    · rw [h1]
      have h2 : (256 ^ w * (b / 256 ^ w % 256) + a % 256 ^ w <
          256 ^ w * (b / 256 ^ w % 256) + b % 256 ^ w) ↔ a % 256 ^ w < b % 256 ^ w := by omega
      by_cases h3 : a % 256 ^ w < b % 256 ^ w
      · simp [h3, h2.mpr h3]
      · simp [h3, fun hc => h3 (h2.mp hc)]
    · have h2 : ¬ (256 ^ w * (a / 256 ^ w % 256) + a % 256 ^ w <
          256 ^ w * (b / 256 ^ w % 256) + b % 256 ^ w) := by
        intro hc
        rcases hiff.mp hc with hc1 | ⟨hc1, _⟩ <;> omega
      simp only [h2, decide_eq_false_iff_not]
      simp [Nat.lt_asymm h1]
      omega

theorem lexLt_be8 (a b : Nat) :
    lexLt (be8 a) (be8 b) = decide (a % 2 ^ 64 < b % 2 ^ 64) := by
  have h : (256 : Nat) ^ 8 = 2 ^ 64 := by norm_num
  rw [be8, be8, lexLt_beBytes, h]

theorem lexLt_be8_of_lt {a b : Nat} (ha : a < 2 ^ 64) (hb : b < 2 ^ 64) :
    lexLt (be8 a) (be8 b) = decide (a < b) := by
  rw [lexLt_be8, Nat.mod_eq_of_lt ha, Nat.mod_eq_of_lt hb]

/-- Split a key at each 0xff delimiter, as Rust `slice::split(|&b| b == 0xff)`
does: `n` delimiters yield `n + 1` segments (possibly empty). -/
def splitSegs : Bytes → List Bytes
  | [] => [[]]
  | b :: rest =>
    if b = 255 then [] :: splitSegs rest
    else
      match splitSegs rest with
      | s :: ss => (b :: s) :: ss
      | [] => [[b]]

theorem splitSegs_ne_nil (k : Bytes) : splitSegs k ≠ [] := by
  induction k with
  | nil => simp [splitSegs]
  | cons b rest ih =>
    by_cases hb : b = 255
    · simp [splitSegs, hb]
    · simp only [splitSegs, hb, if_false]
      cases h : splitSegs rest with
      | nil => simp
      | cons s ss => simp

/-- The segment after the last 0xff delimiter of a key
(Rust `rsplitn(2, |&b| b == 0xff).next()`; the whole key if no delimiter). -/
def lastSeg (k : Bytes) : Bytes := ((splitSegs k).getLast?).getD []

theorem splitSegs_append_delim (x u : Bytes) :
    splitSegs (x ++ 255 :: u) = splitSegs x ++ splitSegs u := by
  induction x with
  | nil => simp [splitSegs]
  | cons b rest ih =>
    by_cases hb : b = 255
    · simp [splitSegs, hb, ih]
    · simp only [List.cons_append, splitSegs, hb, if_false]
      rw [show splitSegs (rest.append (255 :: u)) = splitSegs rest ++ splitSegs u from ih]
      cases h : splitSegs rest with
      | nil => exact absurd h (splitSegs_ne_nil _)
      | cons s ss => simp

/-- A byte string with no delimiter byte is a single segment. -/
theorem splitSegs_no_delim (u : Bytes) (hu : 255 ∉ u) : splitSegs u = [u] := by
  induction u with
  | nil => rfl
  | cons b rest ih =>
    have hb : b ≠ 255 := fun h => hu (by simp [h])
    have hrest : 255 ∉ rest := fun h => hu (List.mem_cons_of_mem _ h)
    simp [splitSegs, hb, ih hrest]

/-- If `u` contains no delimiter byte, the last segment of `x ++ 0xff ++ u`
is exactly `u`. -/
theorem lastSeg_append (x u : Bytes) (hu : 255 ∉ u) : lastSeg (x ++ 255 :: u) = u := by
  rw [lastSeg, splitSegs_append_delim, splitSegs_no_delim u hu, List.getLast?_concat]
  rfl

/-- Big-endian read of a byte string as a u64 (utils::u64_from_bytes). -/
def u64_from_bytes (b : Bytes) : Nat := b.foldl (fun a x => a * 256 + x) 0

/-- `key.starts_with(prefix)` on byte slices. -/
def startsWith (p k : Bytes) : Bool := p.isPrefixOf k

theorem startsWith_iff {p k : Bytes} : startsWith p k = true ↔ p <+: k := by
  rw [startsWith, List.isPrefixOf_iff_prefix]

section Tree

variable {V : Type}

/-- One sled tree: an association list from keys to values, maintained in
strictly ascending key order. -/
abbrev Tree (V : Type) := List (Bytes × V)

/-- Strict sortedness of a tree by key: the representation invariant of the
ordered store. -/
def TreeSorted (t : Tree V) : Prop := t.Pairwise (fun a b => lexLt a.1 b.1 = true)

instance (t : Tree V) : Decidable (TreeSorted t) := by
  unfold TreeSorted
  exact List.instDecidablePairwise t

/-- Point lookup (sled `get`). -/
def tget (t : Tree V) (k : Bytes) : Option V :=
  (t.find? (fun e => e.1 == k)).map (·.2)

/-- Point insert (sled `insert`): replaces the value if the key is present,
otherwise places the new entry at its sorted position. -/
def tinsert (k : Bytes) (v : V) : Tree V → Tree V
  | [] => [(k, v)]
  | (k', v') :: rest =>
    if lexLt k k' then (k, v) :: (k', v') :: rest
    else if k = k' then (k, v) :: rest
    else (k', v') :: tinsert k v rest

/-- Point remove (sled `remove`). -/
def tremove (t : Tree V) (k : Bytes) : Tree V := t.eraseP (fun e => e.1 == k)

/-- `get_gt`: the first entry whose key is strictly greater than `k`
(correct on sorted trees, where the first such entry is the least one). -/
def tget_gt (t : Tree V) (k : Bytes) : Option (Bytes × V) :=
  t.find? (fun e => lexLt k e.1)

/-- `get_lt`: the last entry whose key is strictly less than `k`
(correct on sorted trees, where the last such entry is the greatest one). -/
def tget_lt (t : Tree V) (k : Bytes) : Option (Bytes × V) :=
  (t.filter (fun e => lexLt e.1 k)).getLast?

/-- The last key of the `scan_prefix(pre)` range
(`scan_prefix(..).keys().next_back()`). -/
def scanPrefixLast (t : Tree V) (pre : Bytes) : Option Bytes :=
  ((t.filter (fun e => startsWith pre e.1)).getLast?).map (·.1)

/-- The `get_gt` walk shared by `pdus_since`, `roomlatests_since`,
`roomactives_in` and `room_userdata_since`: starting strictly after `cur`,
collect values while keys keep the prefix `pre`; stop at the first key
outside the prefix.  `fuel` bounds the iteration (the loops in the source
terminate because every step moves strictly forward in a finite tree). -/
def gtScan (t : Tree V) (pre : Bytes) : Nat → Bytes → List V
  | 0, _ => []
  | fuel + 1, cur =>
    match tget_gt t cur with
    | none => []
    | some (k, v) => if startsWith pre k then v :: gtScan t pre fuel k else []

/-- The `get_lt` walk of `pdus_until`: starting strictly before `cur`, collect
values backwards while keys keep the prefix and fewer than `max` values have
been collected. -/
def ltScan (t : Tree V) (pre : Bytes) : Nat → Bytes → Nat → List V
  | 0, _, _ => []
  | fuel + 1, cur, max =>
    match tget_lt t cur with
    | none => []
    | some (k, v) =>
      if 0 < max && startsWith pre k then v :: ltScan t pre fuel k (max - 1) else []

/-- The backward removal walk of `roomlatest_update` / `room_userdata_update`:
from `cur` walk towards smaller keys while still inside the prefix range,
removing the first entry whose key satisfies `matches` and stopping there. -/
def walkRemove (t : Tree V) (pre : Bytes) (mtch : Bytes → Bool) :
    Nat → Bytes → Tree V
  | 0, _ => t
  | fuel + 1, cur =>
    if startsWith pre cur = false then t
    else if mtch cur then tremove t cur
    else
      match tget_lt t cur with
      | some (k, _) => walkRemove t pre mtch fuel k
      | none => t

/-- The removal phase of the single-slot `update` operations: start at the
last key of the scope's range and walk backwards. -/
def slotRemove (t : Tree V) (pre : Bytes) (mtch : Bytes → Bool) : Tree V :=
  match scanPrefixLast t pre with
  | none => t
  | some cur => walkRemove t pre mtch t.length cur

theorem tinsert_sorted {t : Tree V} (hs : TreeSorted t) (k : Bytes) (v : V) :
    TreeSorted (tinsert k v t) := by
  induction t with
  | nil => simp [tinsert, TreeSorted]
  | cons e rest ih =>
    rw [TreeSorted, List.pairwise_cons] at hs
    obtain ⟨he, hrest⟩ := hs
    rw [tinsert]
    by_cases h1 : lexLt k e.1
    · rw [if_pos h1]
      refine List.Pairwise.cons ?_ (List.Pairwise.cons he hrest)
      intro b hb
      rcases hb with _ | hb
      · exact h1
      · exact lexLt_trans h1 (he _ (by assumption))
    · rw [if_neg h1]
      by_cases h2 : k = e.1
      · rw [if_pos h2]
        exact List.Pairwise.cons (fun b hb => h2 ▸ he b hb) hrest
      · rw [if_neg h2]
        have hek : lexLt e.1 k = true := by
          rcases lexLt_total h2 with hh | hh
          · exact absurd hh (by simp [h1])
          · exact hh
        refine List.Pairwise.cons ?_ (ih hrest)
        intro b hb
        -- every entry of `tinsert k v rest` is either the new entry or from rest
        have hmem : b = (k, v) ∨ b ∈ rest := by
          clear ih he hrest
          induction rest with
          | nil => simpa [tinsert] using hb
          | cons f fs ihf =>
            rw [tinsert] at hb
            by_cases hf1 : lexLt k f.1
            · rw [if_pos hf1] at hb
              rcases hb with _ | hb
              · exact Or.inl rfl
              · exact Or.inr (by assumption)
            · rw [if_neg hf1] at hb
              by_cases hf2 : k = f.1
              · rw [if_pos hf2] at hb
                rcases hb with _ | hb
                · exact Or.inl rfl
                · exact Or.inr (List.mem_cons_of_mem _ (by assumption))
              · rw [if_neg hf2] at hb
                rcases hb with _ | hb
                · exact Or.inr (List.mem_cons_self _ _)
                · rcases ihf (by assumption) with hh | hh
                  · exact Or.inl hh
                  · exact Or.inr (List.mem_cons_of_mem _ hh)
        rcases hmem with hh | hh
        · rw [hh]; exact hek
        · exact he _ hh

theorem mem_tinsert_self (k : Bytes) (v : V) (t : Tree V) : (k, v) ∈ tinsert k v t := by
  induction t with
  | nil => simp [tinsert]
  | cons e rest ih =>
    rw [tinsert]
    by_cases h1 : lexLt k e.1
    · rw [if_pos h1]; exact List.mem_cons_self _ _
    · rw [if_neg h1]
      by_cases h2 : k = e.1
      · rw [if_pos h2]; exact List.mem_cons_self _ _
      · rw [if_neg h2]; exact List.mem_cons_of_mem _ ih

theorem tget_tinsert_self (k : Bytes) (v : V) (t : Tree V) :
    tget (tinsert k v t) k = some v := by
  induction t with
  | nil => simp [tinsert, tget, List.find?]
  | cons e rest ih =>
    rw [tinsert]
    by_cases h1 : lexLt k e.1
    · rw [if_pos h1]; simp [tget, List.find?]
    · rw [if_neg h1]
      by_cases h2 : k = e.1
      · rw [if_pos h2]; simp [tget, List.find?]
      · rw [if_neg h2]
        have hne : ((fun e : Bytes × V => e.1 == k) e) = false := by
          simp only [beq_eq_false_iff_ne, ne_eq]
          exact fun hh => h2 hh.symm
        rw [tget, List.find?_cons_of_neg _ (by simp [hne])]
        exact ih

/-- Inserting a key not present in the tree is, up to order, consing the new
entry. -/
theorem tinsert_perm_of_fresh {t : Tree V} {k : Bytes} (v : V)
    (hfresh : ∀ e ∈ t, e.1 ≠ k) : (tinsert k v t).Perm ((k, v) :: t) := by
  induction t with
  | nil => simp [tinsert]
  | cons e rest ih =>
    rw [tinsert]
    by_cases h1 : lexLt k e.1
    · rw [if_pos h1]
    · rw [if_neg h1]
      have h2 : k ≠ e.1 := fun hh => hfresh e (List.mem_cons_self _ _) hh.symm
      rw [if_neg h2]
      have hrest := ih (fun f hf => hfresh f (List.mem_cons_of_mem _ hf))
      exact (hrest.cons e).trans (List.Perm.swap _ _ _)

theorem tremove_sorted {t : Tree V} (hs : TreeSorted t) (k : Bytes) :
    TreeSorted (tremove t k) :=
  List.Pairwise.sublist (List.eraseP_sublist t) hs

/-- Keys of a sorted tree are distinct. -/
theorem sorted_keys_eq_of_mem {t : Tree V} (hs : TreeSorted t) {e f : Bytes × V}
    (he : e ∈ t) (hf : f ∈ t) (hk : e.1 = f.1) : e = f := by
  induction t with
  | nil => simp at he
  | cons g rest ih =>
    rw [TreeSorted, List.pairwise_cons] at hs
    obtain ⟨hg, hrest⟩ := hs
    rcases he with _ | he <;> rcases hf with _ | hf
    · rfl
    · exact absurd (hk ▸ hg f (by assumption)) (by simp [lexLt_irrefl])
    · exact absurd (hk ▸ hg e (by assumption)) (by simp [lexLt_irrefl])
    · exact ih hrest (by assumption) (by assumption)

/-- `get_gt` step on a sorted tree: if it returns `(k', v')`, that entry is
the least one strictly above the probe, and the probe's strict upper set is
`(k', v')` followed by `k'`'s strict upper set. -/
theorem tget_gt_some {t : Tree V} {k k' : Bytes} {v' : V} (hs : TreeSorted t)
    (h : tget_gt t k = some (k', v')) :
    lexLt k k' = true ∧ (k', v') ∈ t ∧
      t.filter (fun e => lexLt k e.1) = (k', v') :: t.filter (fun e => lexLt k' e.1) := by
  induction t with
  | nil => simp [tget_gt] at h
  | cons e rest ih =>
    rw [TreeSorted, List.pairwise_cons] at hs
    obtain ⟨he, hrest⟩ := hs
    by_cases hp : lexLt k e.1
    · rw [tget_gt, List.find?_cons_of_pos (p := fun e : Bytes × V => lexLt k e.1) rest hp] at h
      injection h with h
      subst h
      refine ⟨hp, List.mem_cons_self _ _, ?_⟩
      rw [List.filter_cons_of_pos (p := fun e : Bytes × V => lexLt k e.1) hp, List.filter_cons_of_neg]
      · congr 1
        · rw [List.filter_eq_self.mpr fun a ha => he a ha]
          rw [List.filter_eq_self.mpr fun a ha => lexLt_trans hp (he a ha)]
      · simp [lexLt_irrefl]
    · rw [tget_gt, List.find?_cons_of_neg (p := fun e : Bytes × V => lexLt k e.1) rest hp] at h
      obtain ⟨h1, h2, h3⟩ := ih hrest h
      refine ⟨h1, List.mem_cons_of_mem _ h2, ?_⟩
      rw [List.filter_cons_of_neg (p := fun e : Bytes × V => lexLt k e.1) hp,
        List.filter_cons_of_neg (p := fun e : Bytes × V => lexLt k' e.1), h3]
      intro hc
      have hek : lexLt e.1 k = true ∨ e.1 = k := by
        by_cases hh : e.1 = k
        · exact Or.inr hh
        · rcases lexLt_total hh with h4 | h4
          · exact Or.inl h4
          · exact absurd h4 (by simp [hp])
      rcases hek with h4 | h4
      · have := lexLt_trans h1 (lexLt_trans hc h4)
        rw [lexLt_irrefl] at this
        exact Bool.false_ne_true this
      · have := lexLt_trans h1 (h4 ▸ hc)
        rw [lexLt_irrefl] at this
        exact Bool.false_ne_true this

theorem tget_gt_none {t : Tree V} {k : Bytes} (h : tget_gt t k = none) :
    t.filter (fun e => lexLt k e.1) = [] := by
  rw [tget_gt, List.find?_eq_none] at h
  exact List.filter_eq_nil_iff.mpr h

/-- `get_lt` step on a sorted tree: if it returns `(k', v')`, that entry is
the greatest one strictly below the probe, and the probe's strict lower set is
`k'`'s strict lower set followed by `(k', v')`. -/
theorem tget_lt_some {t : Tree V} {k k' : Bytes} {v' : V} (hs : TreeSorted t)
    (h : tget_lt t k = some (k', v')) :
    lexLt k' k = true ∧ (k', v') ∈ t ∧
      t.filter (fun e => lexLt e.1 k) = t.filter (fun e => lexLt e.1 k') ++ [(k', v')] := by
  induction t with
  | nil => simp [tget_lt] at h
  | cons e rest ih =>
    rw [TreeSorted, List.pairwise_cons] at hs
    obtain ⟨he, hrest⟩ := hs
    by_cases hp : lexLt e.1 k
    · rw [tget_lt, List.filter_cons_of_pos (p := fun f : Bytes × V => lexLt f.1 k) hp] at h
      cases hrf : rest.filter (fun e => lexLt e.1 k) with
      | nil =>
        rw [hrf] at h
        simp only [List.getLast?_singleton] at h
        injection h with h
        subst h
        refine ⟨hp, List.mem_cons_self _ _, ?_⟩
        rw [List.filter_cons_of_pos (p := fun f : Bytes × V => lexLt f.1 k) hp, hrf,
          List.filter_cons_of_neg (p := fun f : Bytes × V => lexLt f.1 k'),
          List.filter_eq_nil_iff.mpr]
        · rfl
        · intro a ha hc
          exact Bool.false_ne_true ((lexLt_asymm (he a ha)) ▸ hc)
        · simp [lexLt_irrefl]
      | cons f fs =>
        rw [hrf, List.getLast?_cons_cons, ← hrf] at h
        have h' : tget_lt rest k = some (k', v') := by
          rw [tget_lt]; rw [hrf] at h ⊢; exact h
        obtain ⟨h1, h2, h3⟩ := ih hrest h'
        have hek' : lexLt e.1 k' = true := he _ h2
        refine ⟨h1, List.mem_cons_of_mem _ h2, ?_⟩
        rw [List.filter_cons_of_pos (p := fun f : Bytes × V => lexLt f.1 k) hp,
          List.filter_cons_of_pos (p := fun f : Bytes × V => lexLt f.1 k') hek', h3]
        rfl
    · rw [tget_lt, List.filter_cons_of_neg (p := fun f : Bytes × V => lexLt f.1 k) hp] at h
      obtain ⟨h1, h2, h3⟩ := ih hrest h
      refine ⟨h1, List.mem_cons_of_mem _ h2, ?_⟩
      rw [List.filter_cons_of_neg (p := fun f : Bytes × V => lexLt f.1 k) hp,
        List.filter_cons_of_neg (p := fun f : Bytes × V => lexLt f.1 k'), h3]
      intro hc
      have : lexLt e.1 k = true := lexLt_trans hc h1
      exact hp this

theorem tget_lt_none {t : Tree V} {k : Bytes} (h : tget_lt t k = none) :
    t.filter (fun e => lexLt e.1 k) = [] := by
  rw [tget_lt] at h
  exact List.getLast?_eq_none_iff.mp h

/-- The forward scan loop on a sorted tree collects exactly the entries
strictly above the start key that carry the scan prefix, in key order. -/
theorem gtScan_eq {t : Tree V} {pre : Bytes} (hs : TreeSorted t) :
    ∀ (fuel : Nat) (cur : Bytes), pre <+: cur →
      (t.filter (fun e => lexLt cur e.1)).length ≤ fuel →
      gtScan t pre fuel cur =
        (List.filter (fun e => startsWith pre e.1)
          (t.filter (fun e => lexLt cur e.1))).map (·.2) := by
  intro fuel
  induction fuel with
  | zero =>
    intro cur hpre hlen
    have h0 : t.filter (fun e => lexLt cur e.1) = [] :=
      List.eq_nil_of_length_eq_zero (Nat.le_zero.mp hlen)
    rw [gtScan, h0]
    rfl
  | succ fuel ih =>
    intro cur hpre hlen
    rw [gtScan]
    cases hg : tget_gt t cur with
    | none =>
      rw [tget_gt_none hg]
      rfl
    | some kv =>
      obtain ⟨k, v⟩ := kv
      obtain ⟨hlt, hmem, hfil⟩ := tget_gt_some hs hg
      show (if startsWith pre k then v :: gtScan t pre fuel k else []) = _
      by_cases hp : startsWith pre k
      · rw [if_pos hp, hfil,
          List.filter_cons_of_pos (p := fun e : Bytes × V => startsWith pre e.1) hp,
          List.map_cons]
        congr 1
        have hlen2 : (t.filter (fun e => lexLt k e.1)).length ≤ fuel := by
          rw [hfil, List.length_cons] at hlen
          omega
        exact ih k (startsWith_iff.mp hp) hlen2
      · rw [if_neg hp, hfil,
          List.filter_cons_of_neg (p := fun e : Bytes × V => startsWith pre e.1) hp,
          List.filter_eq_nil_iff.mpr]
        · rfl
        · intro a ha hc
          have hmem2 := List.mem_filter.mp ha
          have hk : pre <+: k :=
            lexLt_prefix_between hlt (by simpa using hmem2.2) hpre (startsWith_iff.mp hc)
          exact hp (startsWith_iff.mpr hk)

/-- The backward scan loop on a sorted tree collects, newest first, exactly
the entries strictly below the start key that carry the scan prefix, provided
the result cap `max` is not hit. -/
theorem ltScan_eq {t : Tree V} {pre : Bytes} (hs : TreeSorted t) :
    ∀ (fuel : Nat) (cur : Bytes) (mx : Nat), pre <+: cur →
      (t.filter (fun e => lexLt e.1 cur)).length ≤ fuel →
      (List.filter (fun e => startsWith pre e.1)
        (t.filter (fun e => lexLt e.1 cur))).length ≤ mx →
      ltScan t pre fuel cur mx =
        ((List.filter (fun e => startsWith pre e.1)
          (t.filter (fun e => lexLt e.1 cur))).reverse).map (·.2) := by
  intro fuel
  induction fuel with
  | zero =>
    intro cur mx hpre hlen hmx
    have h0 : t.filter (fun e => lexLt e.1 cur) = [] :=
      List.eq_nil_of_length_eq_zero (Nat.le_zero.mp hlen)
    rw [ltScan, h0]
    rfl
  | succ fuel ih =>
    intro cur mx hpre hlen hmx
    rw [ltScan]
    cases hg : tget_lt t cur with
    | none =>
      rw [tget_lt_none hg]
      rfl
    | some kv =>
      obtain ⟨k, v⟩ := kv
      obtain ⟨hlt, hmem, hfil⟩ := tget_lt_some hs hg
      show (if 0 < mx && startsWith pre k then v :: ltScan t pre fuel k (mx - 1) else []) = _
      by_cases hp : startsWith pre k
      · have hsplit : List.filter (fun e => startsWith pre e.1)
            (t.filter (fun e => lexLt e.1 cur)) =
            List.filter (fun e => startsWith pre e.1)
              (t.filter (fun e => lexLt e.1 k)) ++ [(k, v)] := by
          rw [hfil, List.filter_append]
          congr 1
          rw [List.filter_cons_of_pos (p := fun e : Bytes × V => startsWith pre e.1) hp]
          rfl
        have hmx1 : 0 < mx := by
          rw [hsplit, List.length_append, List.length_singleton] at hmx
          omega
        rw [if_pos (by simp [hp, hmx1]), hsplit, List.reverse_append]
        simp only [List.reverse_singleton, List.singleton_append, List.map_cons]
        congr 1
        have hlen2 : (t.filter (fun e => lexLt e.1 k)).length ≤ fuel := by
          rw [hfil, List.length_append, List.length_singleton] at hlen
          omega
        have hmx2 : (List.filter (fun e => startsWith pre e.1)
            (t.filter (fun e => lexLt e.1 k))).length ≤ mx - 1 := by
          rw [hsplit, List.length_append, List.length_singleton] at hmx
          omega
        exact ih k (mx - 1) (startsWith_iff.mp hp) hlen2 hmx2
      · have hnil : List.filter (fun e => startsWith pre e.1)
            (t.filter (fun e => lexLt e.1 cur)) = [] := by
          rw [hfil, List.filter_append,
            List.filter_cons_of_neg (p := fun e : Bytes × V => startsWith pre e.1) hp]
          rw [List.filter_eq_nil_iff.mpr, List.filter_eq_nil_iff.mpr]
          · rfl
          · simp
          · intro a ha hc
            have hmem2 := List.mem_filter.mp ha
            have hk : pre <+: k :=
              lexLt_prefix_between (by simpa using hmem2.2) hlt (startsWith_iff.mp hc) hpre
            exact hp (startsWith_iff.mpr hk)
        rw [hnil, if_neg (by simp [hp])]
        rfl

/-- In a sorted list every element is at most the last one. -/
theorem sorted_le_getLast {l : List (Bytes × V)}
    (hp : List.Pairwise (fun a b => lexLt a.1 b.1 = true) l) {e f : Bytes × V}
    (hl : l.getLast? = some f) (he : e ∈ l) : e = f ∨ lexLt e.1 f.1 = true := by
  induction l with
  | nil => simp at he
  | cons x xs ih =>
    rw [List.pairwise_cons] at hp
    obtain ⟨hx, hxs⟩ := hp
    cases xs with
    | nil =>
      simp only [List.getLast?_singleton] at hl
      injection hl with hl
      rcases List.mem_cons.mp he with h1 | h1
      · exact Or.inl (h1.trans hl)
      · simp at h1
    | cons y ys =>
      rw [List.getLast?_cons_cons] at hl
      rcases List.mem_cons.mp he with h1 | h1
      · have hf : f ∈ y :: ys := List.mem_of_mem_getLast? hl
        exact Or.inr (h1 ▸ hx f hf)
      · exact ih hxs hl h1

theorem scanPrefixLast_none {t : Tree V} {pre : Bytes} (h : scanPrefixLast t pre = none) :
    ∀ e ∈ t, startsWith pre e.1 = false := by
  rw [scanPrefixLast] at h
  have h2 : (t.filter (fun e => startsWith pre e.1)).getLast? = none := by
    cases hh : (t.filter (fun e => startsWith pre e.1)).getLast? with
    | none => rfl
    | some x => rw [hh] at h; simp at h
  have h3 := List.getLast?_eq_none_iff.mp h2
  intro e he
  cases hh : startsWith pre e.1 with
  | false => rfl
  | true =>
    have : e ∈ t.filter (fun e => startsWith pre e.1) := List.mem_filter.mpr ⟨he, hh⟩
    rw [h3] at this
    simp at this

theorem scanPrefixLast_some {t : Tree V} {pre c : Bytes} (hs : TreeSorted t)
    (h : scanPrefixLast t pre = some c) :
    (∃ v, (c, v) ∈ t) ∧ startsWith pre c = true ∧
      ∀ e ∈ t, startsWith pre e.1 = true → (e.1 = c ∨ lexLt e.1 c = true) := by
  rw [scanPrefixLast] at h
  cases hh : (t.filter (fun e => startsWith pre e.1)).getLast? with
  | none => rw [hh] at h; simp at h
  | some f =>
    rw [hh] at h
    simp only [Option.map_some'] at h
    injection h with h
    have hfmem : f ∈ t.filter (fun e => startsWith pre e.1) := List.mem_of_mem_getLast? hh
    have hfmem2 := List.mem_filter.mp hfmem
    have hsf : List.Pairwise (fun a b => lexLt a.1 b.1 = true)
        (t.filter (fun e => startsWith pre e.1)) :=
      List.Pairwise.sublist (List.filter_sublist t) hs
    refine ⟨⟨f.2, by rw [← h]; exact (by simpa using hfmem2.1)⟩, by rw [← h]; simpa using hfmem2.2, ?_⟩
    intro e he hp
    have hemem : e ∈ t.filter (fun e => startsWith pre e.1) := List.mem_filter.mpr ⟨he, hp⟩
    rcases sorted_le_getLast hsf hh hemem with h1 | h1
    · exact Or.inl (by rw [h1, h])
    · exact Or.inr (by rw [← h]; exact h1)

/-- The backward walk removes nothing if no in-range key matches. -/
theorem walkRemove_no_match {t : Tree V} {pre : Bytes} {mtch : Bytes → Bool}
    (hs : TreeSorted t)
    (hnone : ∀ e ∈ t, startsWith pre e.1 = true → mtch e.1 = false) :
    ∀ (fuel : Nat) (cur : Bytes), (∃ v, (cur, v) ∈ t) →
      walkRemove t pre mtch fuel cur = t := by
  intro fuel
  induction fuel with
  | zero => intro cur _; rfl
  | succ fuel ih =>
    intro cur hcur
    rw [walkRemove]
    cases hpre : startsWith pre cur with
    | false => simp
    | true =>
      simp only [Bool.true_eq_false, if_false]
      obtain ⟨v, hv⟩ := hcur
      have hm : mtch cur = false := hnone (cur, v) hv hpre
      rw [hm]
      simp only [Bool.false_eq_true, if_false]
      cases hg : tget_lt t cur with
      | none => rfl
      | some kv =>
        obtain ⟨k, w⟩ := kv
        obtain ⟨_, hmem, _⟩ := tget_lt_some hs hg
        exact ih k ⟨w, hmem⟩

/-- The backward walk, started at or above the unique matching key of its
range, removes exactly that key's entry. -/
theorem walkRemove_found {t : Tree V} {pre : Bytes} {mtch : Bytes → Bool} {k0 : Bytes}
    (hs : TreeSorted t) (hpre0 : startsWith pre k0 = true) (hm0 : mtch k0 = true)
    (huniq : ∀ e ∈ t, startsWith pre e.1 = true → mtch e.1 = true → e.1 = k0) :
    ∀ (fuel : Nat) (cur : Bytes), (∃ v, (cur, v) ∈ t) → startsWith pre cur = true →
      (∃ v0, (k0, v0) ∈ t) → (k0 = cur ∨ lexLt k0 cur = true) →
      (t.filter (fun e => lexLt e.1 cur)).length < fuel →
      walkRemove t pre mtch fuel cur = tremove t k0 := by
  intro fuel
  induction fuel with
  | zero => intro cur _ _ _ _ hlen; omega
  | succ fuel ih =>
    intro cur hcur hprec hk0 hord hlen
    rw [walkRemove, hprec]
    simp only [Bool.true_eq_false, if_false]
    cases hm : mtch cur with
    | true =>
      simp only [if_true]
      obtain ⟨v, hv⟩ := hcur
      have : cur = k0 := huniq (cur, v) hv hprec hm
      rw [this]
    | false =>
      simp only [Bool.false_eq_true, if_false]
      have hordlt : lexLt k0 cur = true := by
        rcases hord with h1 | h1
        · exact absurd (h1 ▸ hm0) (by rw [hm]; simp)
        · exact h1
      obtain ⟨v0, hv0⟩ := hk0
      have hk0fil : (k0, v0) ∈ t.filter (fun e => lexLt e.1 cur) :=
        List.mem_filter.mpr ⟨hv0, by simpa using hordlt⟩
      cases hg : tget_lt t cur with
      | none =>
        rw [tget_lt_none hg] at hk0fil
        simp at hk0fil
      | some kv =>
        obtain ⟨k, w⟩ := kv
        obtain ⟨hklt, hkmem, hkfil⟩ := tget_lt_some hs hg
        have hk0k : k0 = k ∨ lexLt k0 k = true := by
          rw [hkfil] at hk0fil
          rcases List.mem_append.mp hk0fil with h1 | h1
          · exact Or.inr (by simpa using (List.mem_filter.mp h1).2)
          · have h2 := List.mem_singleton.mp h1
            exact Or.inl (Prod.ext_iff.mp h2).1
        have hprek : startsWith pre k = true := by
          rcases hk0k with h1 | h1
          · rw [← h1]; exact hpre0
          · exact startsWith_iff.mpr
              (lexLt_prefix_between h1 hklt (startsWith_iff.mp hpre0) (startsWith_iff.mp hprec))
        have hlen2 : (t.filter (fun e => lexLt e.1 k)).length < fuel := by
          rw [hkfil, List.length_append, List.length_singleton] at hlen
          omega
        exact ih k ⟨w, hkmem⟩ hprek ⟨v0, hv0⟩ hk0k hlen2

/-- Two elements of a list with at most one `p`-match are equal whenever both
match. -/
theorem eq_of_countP_le_one {l : List (Bytes × V)} {p : Bytes × V → Bool}
    (h : l.countP p ≤ 1) {a b : Bytes × V} (ha : a ∈ l) (hb : b ∈ l)
    (hpa : p a = true) (hpb : p b = true) : a = b := by
  rw [List.countP_eq_length_filter] at h
  have ha2 : a ∈ l.filter p := List.mem_filter.mpr ⟨ha, hpa⟩
  have hb2 : b ∈ l.filter p := List.mem_filter.mpr ⟨hb, hpb⟩
  cases hl : l.filter p with
  | nil => rw [hl] at ha2; simp at ha2
  | cons x xs =>
    cases xs with
    | nil =>
      rw [hl] at ha2 hb2
      simp at ha2 hb2
      rw [ha2, hb2]
    | cons y ys => rw [hl] at h; simp at h

/-- Removing the only `p`-matching entry of a sorted tree drops the `p`-count
to zero. -/
theorem countP_tremove_unique {t : Tree V} {p : Bytes × V → Bool} {k0 : Bytes} {v0 : V}
    (hs : TreeSorted t) (hmem : (k0, v0) ∈ t) (_hp0 : p (k0, v0) = true)
    (huniq : ∀ e ∈ t, p e = true → e = (k0, v0)) :
    (tremove t k0).countP p = 0 := by
  obtain ⟨a, l1, l2, hl1, hpa, hdec, herase⟩ :=
    List.exists_of_eraseP (p := fun e : Bytes × V => e.1 == k0) hmem (by simp)
  have hamem : a ∈ t := by rw [hdec]; exact List.mem_append.mpr (Or.inr (List.mem_cons_self _ _))
  have hak : a.1 = k0 := by simpa using hpa
  have ha0 : a = (k0, v0) := sorted_keys_eq_of_mem hs hamem hmem hak
  rw [tremove, herase, List.countP_eq_zero]
  intro b hb hpb
  have hbt : b ∈ t := by
    rw [hdec]
    rcases List.mem_append.mp hb with h1 | h1
    · exact List.mem_append.mpr (Or.inl h1)
    · exact List.mem_append.mpr (Or.inr (List.mem_cons_of_mem _ h1))
  have hb0 : b = (k0, v0) := huniq b hbt hpb
  -- but (k0, v0) occurs exactly once in t, at the removed position
  rw [hdec] at hs
  rw [TreeSorted, List.pairwise_append] at hs
  obtain ⟨hs1, hs2, hs12⟩ := hs
  rcases List.mem_append.mp hb with h1 | h1
  · have := hs12 b h1 a (List.mem_cons_self _ _)
    rw [hb0, ha0] at this
    simp [lexLt_irrefl] at this
  · rw [List.pairwise_cons] at hs2
    have := hs2.1 b h1
    rw [hb0, ha0] at this
    simp [lexLt_irrefl] at this

/-- Splitting a filter over disjoint predicates where, in list order, no
`phigh`-element precedes a `plow`-element. -/
theorem filter_append_filter_split {α : Type} {R : α → α → Prop} {l : List α}
    (hs : List.Pairwise R l) (plow phigh : α → Bool)
    (hdisj : ∀ a, ¬(plow a = true ∧ phigh a = true))
    (hord : ∀ a ∈ l, ∀ b ∈ l, R a b → phigh a = true → plow b = false) :
    l.filter plow ++ l.filter phigh = l.filter (fun a => plow a || phigh a) := by
  induction l with
  | nil => rfl
  | cons x xs ih =>
    rw [List.pairwise_cons] at hs
    obtain ⟨hx, hxs⟩ := hs
    have hord2 : ∀ a ∈ xs, ∀ b ∈ xs, R a b → phigh a = true → plow b = false :=
      fun a ha b hb => hord a (List.mem_cons_of_mem _ ha) b (List.mem_cons_of_mem _ hb)
    cases hlo : plow x with
    | true =>
      have hhi : phigh x = false := by
        cases hh : phigh x with
        | false => rfl
        | true => exact absurd ⟨hlo, hh⟩ (hdisj x)
      rw [List.filter_cons_of_pos hlo, List.filter_cons_of_neg (by simp [hhi]),
        List.filter_cons_of_pos (by simp [hlo])]
      rw [List.cons_append]
      congr 1
      exact ih hxs hord2
    | false =>
      cases hhi : phigh x with
      | true =>
        have hlxs : ∀ b ∈ xs, plow b = false := fun b hb =>
          hord x (List.mem_cons_self _ _) b (List.mem_cons_of_mem _ hb) (hx b hb) hhi
        have hnil : xs.filter plow = [] :=
          List.filter_eq_nil_iff.mpr (fun b hb => by simp [hlxs b hb])
        rw [List.filter_cons_of_neg (by simp [hlo]), List.filter_cons_of_pos hhi,
          List.filter_cons_of_pos (p := fun a => plow a || phigh a) (by simp [hhi]),
          hnil, List.nil_append]
        congr 1
        apply List.filter_congr
        intro b hb
        simp [hlxs b hb]
      | false =>
        rw [List.filter_cons_of_neg (by simp [hlo]), List.filter_cons_of_neg (by simp [hhi]),
          List.filter_cons_of_neg (by simp [hlo, hhi])]
        exact ih hxs hord2

end Tree

/-! ## Domain model (src/data.rs types)

Identifiers are carried as their byte representation; valid Matrix
identifiers are nonempty and never contain the 0xff delimiter byte.
JSON (de)serialization of stored values is modelled as the identity:
trees store the structured values directly. -/

structure RoomId where
  bytes : Bytes
deriving DecidableEq

structure UserId where
  bytes : Bytes
deriving DecidableEq

structure EventId where
  bytes : Bytes
deriving DecidableEq

/-- A well-formed identifier byte string: nonempty, no delimiter byte. -/
def ValidId (b : Bytes) : Prop := b ≠ [] ∧ 255 ∉ b

instance (b : Bytes) : Decidable (ValidId b) := by
  unfold ValidId
  infer_instance

inductive EventType
  | roomMember
  | roomPowerLevels
  | other (t : Bytes)
deriving DecidableEq

/-- `EventType::to_string().as_bytes()`. -/
def EventType.bytes : EventType → Bytes
  | roomMember => strBytes "m.room.member"
  | roomPowerLevels => strBytes "m.room.power_levels"
  | other t => t

/-- The fields of `ruma_events::room::power_levels::PowerLevelsEventContent`
consulted by the authorization gate: the per-user overrides and the
`users_default` fallback. -/
structure PowerLevelsEventContent where
  users : List (UserId × Int)
  users_default : Int
deriving DecidableEq

/-- Event content: either a payload that deserializes as power-levels
content, or any other opaque JSON payload. -/
inductive Content
  | powerLevels (pl : PowerLevelsEventContent)
  | other (payload : Bytes)
deriving DecidableEq

/-- `serde_json::from_value::<EventJson<PowerLevelsEventContent>>` followed by
`.deserialize()`: succeeds exactly on power-levels payloads (the source
`.unwrap()`s, so a failure is a fault of the in-flight append). -/
def decodePowerLevels : Content → Option PowerLevelsEventContent
  | .powerLevels pl => some pl
  | .other _ => none

structure PduEvent where
  event_id : EventId
  room_id : RoomId
  sender : UserId
  origin : Bytes
  origin_server_ts : Nat
  kind : EventType
  content : Content
  state_key : Option Bytes
  prev_events : List EventId
  depth : Nat
  auth_events : List EventId
  redacts : Option EventId
  unsigned : List (Bytes × Content)
  hashes : Bytes
  signatures : List (Bytes × Bytes)
deriving DecidableEq

/-- An EDU payload (`ruma_events::collections::only::Event`): a typing event
(the canonical "empty" marker is `typing []`) or any other event, carrying
its `type` field. -/
inductive EduEvent
  | typing (user_ids : List UserId)
  | other (etype : Bytes) (payload : Bytes)
deriving DecidableEq

/-- The serialized event's `json["type"]` field. -/
def EduEvent.etypeOf : EduEvent → Bytes
  | .typing _ => strBytes "m.typing"
  | .other t _ => t

/-- Association-list map with insert-replaces semantics: the model of the
`HashMap`s built by `room_state` and `room_userdata_since`. -/
def mapInsert {K V : Type} [DecidableEq K] (m : List (K × V)) (k : K) (v : V) :
    List (K × V) :=
  match m with
  | [] => [(k, v)]
  | (k', v') :: rest => if k' = k then (k, v) :: rest else (k', v') :: mapInsert rest k v

def mapFind? {K V : Type} [DecidableEq K] (m : List (K × V)) (k : K) : Option V :=
  (m.find? (fun e => decide (e.1 = k))).map (·.2)

/-- The store state of `Data` (src/data.rs): the sled trees touched by the
verified operations, plus the `COUNTER` cell of the `global` tree and the
server hostname.  The counter is modelled from the spec as a strictly
increasing sequence (`utils::increment` and database.rs are not under src/):
`update_and_fetch(COUNTER, increment)` is `global + 1`. -/
structure Data where
  hostname : Bytes
  global : Nat
  pduid_pdu : Tree PduEvent
  eventid_pduid : Tree Bytes
  roomid_pduleaves : List (Bytes × List Bytes)
  roomstateid_pdu : Tree PduEvent
  roomlatestid_roomlatest : Tree EduEvent
  roomactiveid_roomactive : Tree EduEvent
  roomuserdataid_accountdata : Tree EduEvent
  roomuserid_lastread : Tree Nat
deriving DecidableEq

/-! ## Operations (src/data.rs impl Data) -/

/-- `room_state`: scan the tertiary state index under the room's byte prefix
(the source passes the bare room id, without the 0xff delimiter) and fold the
entries into a map keyed by `(kind, state_key)`, last write wins in key
order.  `none` models the source's panic on a state entry without a
state key. -/
def room_state (s : Data) (room_id : RoomId) :
    Option (List ((EventType × Bytes) × PduEvent)) :=
  (s.roomstateid_pdu.filter (fun e => startsWith room_id.bytes e.1)).foldlM
    (fun m e =>
      match e.2.state_key with
      | some sk => some (mapInsert m (e.2.kind, sk) e.2)
      | none => none)
    []

/-- `pdu_get_count`: the stream ordinal of an event, read from the last
8 bytes of the pdu id held in the secondary index. -/
def pdu_get_count (s : Data) (event_id : EventId) : Option Nat :=
  (tget s.eventid_pduid event_id.bytes).map
    (fun pdu_id => u64_from_bytes (pdu_id.drop (pdu_id.length - 8)))

/-- `pdu_get`: point lookup through the secondary index.  (The source panics
if the indexed pdu id is dangling; here that is folded into `none`.) -/
def pdu_get (s : Data) (event_id : EventId) : Option PduEvent :=
  (tget s.eventid_pduid event_id.bytes).bind (fun pdu_id => tget s.pduid_pdu pdu_id)

/-- `pdu_leaves_get`.  The multi-value tree `roomid_pduleaves` lives in
database.rs (not under src/); modelled from the spec: `frontier(room_id)`
returns the room's current leaves. -/
def pdu_leaves_get (s : Data) (room_id : RoomId) : List EventId :=
  ((mapFind? s.roomid_pduleaves room_id.bytes).getD []).map EventId.mk

/-- `pdu_leaves_replace`.  Modelled from the spec: clears prior frontier
entries for the room and inserts the single new event id. -/
def pdu_leaves_replace (s : Data) (room_id : RoomId) (event_id : EventId) : Data :=
  { s with roomid_pduleaves := mapInsert s.roomid_pduleaves room_id.bytes [event_id.bytes] }

/-- `room_read_set`: resolve the event to its ordinal and overwrite the
(room, user) read cursor; a no-op if the event is unknown.  (The source
returns `Option<()>`, which `pdu_append` discards.) -/
def room_read_set (s : Data) (room_id : RoomId) (user_id : UserId) (event_id : EventId) :
    Data :=
  match pdu_get_count s event_id with
  | none => s
  | some c =>
    { s with roomuserid_lastread :=
        tinsert (room_id.bytes ++ [255] ++ user_id.bytes) c s.roomuserid_lastread }

/-- `room_read_get`. -/
def room_read_get (s : Data) (room_id : RoomId) (user_id : UserId) : Option Nat :=
  tget s.roomuserid_lastread (room_id.bytes ++ [255] ++ user_id.bytes)

/-- The candidate PDU as constructed by `pdu_append` before the event id is
assigned (src/data.rs lines 506-553): prev_events from the frontier, depth =
1 + max depth of the frontier events (1 for an empty frontier), optional
`prev_content` copied into `unsigned`, placeholder event id.  `none` models
the panics on a dangling frontier id or malformed state entry. -/
def canonicalPdu (s : Data) (now : Nat) (room_id : RoomId) (sender : UserId)
    (event_type : EventType) (content : Content)
    (unsigned : Option (List (Bytes × Content))) (state_key : Option Bytes) :
    Option PduEvent :=
  let prev_events := pdu_leaves_get s room_id
  match prev_events.mapM (fun eid => pdu_get s eid) with
  | none => none
  | some prev_pdus =>
    let depth := (prev_pdus.map (fun p => p.depth)).foldr max 0 + 1
    let base := unsigned.getD []
    let mk := fun (unsigned2 : List (Bytes × Content)) =>
      { event_id := EventId.mk (strBytes "$thiswillbefilledinlater")
        room_id := room_id
        sender := sender
        origin := s.hostname
        origin_server_ts := now
        kind := event_type
        content := content
        state_key := state_key
        prev_events := prev_events
        depth := depth
        auth_events := []
        redacts := none
        unsigned := unsigned2
        hashes := strBytes "aaa"
        signatures := [] : PduEvent }
    match state_key with
    | some sk =>
      match room_state s room_id with
      | none => none
      | some st =>
        match mapFind? st (event_type, sk) with
        | some prev_pdu => some (mk (mapInsert base (strBytes "prev_content") prev_pdu.content))
        | none => some (mk base)
    | none => some (mk base)

/-- The content-derived event id: `"$" ++ reference_hash(canonical pdu)`.
`refHash` is the hash capability (`ruma_signatures::reference_hash` is an
external crate; the spec treats hashing as a consumed capability). -/
def assignedId (refHash : PduEvent → Bytes) (c : PduEvent) : EventId :=
  EventId.mk (strBytes "$" ++ refHash c)

/-- The signed PDU persisted by `pdu_append`: the canonical PDU with its
final event id and the `hashes`/`signatures` produced by
`ruma_signatures::hash_and_sign_event` (the signing capability). -/
def signedPdu (hashSign : PduEvent → Bytes × List (Bytes × Bytes)) (c : PduEvent)
    (eid : EventId) : PduEvent :=
  let pdu := { c with event_id := eid }
  { pdu with hashes := (hashSign pdu).1, signatures := (hashSign pdu).2 }

/-- The write sequence of a successful `pdu_append` (src/data.rs lines
563-607): replace the frontier with the new id, take a fresh ordinal, write
the primary record under room ++ 0xff ++ ordinal, the secondary index from
event id to that key, the state index for state events, and the sender's
read cursor. -/
def appendWrites (hashSign : PduEvent → Bytes × List (Bytes × Bytes)) (s : Data)
    (room_id : RoomId) (sender : UserId) (event_type : EventType) (c : PduEvent)
    (eid : EventId) : Data :=
  let signed := signedPdu hashSign c eid
  let s1 := pdu_leaves_replace s room_id eid
  let index := s1.global + 1
  let s2 := { s1 with global := index }
  let pdu_id := room_id.bytes ++ [255] ++ be8 index
  let s3 := { s2 with pduid_pdu := tinsert pdu_id signed s2.pduid_pdu }
  let s4 := { s3 with eventid_pduid := tinsert eid.bytes pdu_id s3.eventid_pduid }
  let s5 :=
    match c.state_key with
    | some sk =>
      let stKey := room_id.bytes ++ [255] ++ event_type.bytes ++ [255] ++ sk
      { s4 with roomstateid_pdu := tinsert stKey signed s4.roomstateid_pdu }
    | none => s4
  room_read_set s5 room_id sender eid

/-- `pdu_append` after the authorization gate (src/data.rs lines 506-609):
build the canonical PDU, assign its content-derived id, and perform the
write sequence. -/
def pdu_append_rest (refHash : PduEvent → Bytes)
    (hashSign : PduEvent → Bytes × List (Bytes × Bytes)) (s : Data) (now : Nat)
    (room_id : RoomId) (sender : UserId) (event_type : EventType) (content : Content)
    (unsigned : Option (List (Bytes × Content))) (state_key : Option Bytes) :
    Option (Option EventId × Data) :=
  match canonicalPdu s now room_id sender event_type content unsigned state_key with
  | none => none
  | some c =>
    let eid := assignedId refHash c
    some (some eid, appendWrites hashSign s room_id sender event_type c eid)

/-- The sender's effective power level: the explicit per-user override if
present, else `users_default`
(`power_levels.users.get(&sender).unwrap_or(&power_levels.users_default)`). -/
def effectiveLevel (pl : PowerLevelsEventContent) (u : UserId) : Int :=
  (mapFind? pl.users u).getD pl.users_default

/-- `pdu_append` (src/data.rs lines 464-610).  The outer `Option` models a
fault (a source panic: malformed state entry, dangling frontier id); the
inner `Option` is the source's return value, where `none` is the
authorization gate's rejection (src line 498) and leaves the store
untouched.  For a candidate with a state key, the gate looks up the room's
current power-levels state: absent → admit; present → membership events
admitted unconditionally ("Member events are okay for now"), any other kind
admitted iff the sender's effective power level is > 0. -/
def pdu_append (refHash : PduEvent → Bytes)
    (hashSign : PduEvent → Bytes × List (Bytes × Bytes)) (s : Data) (now : Nat)
    (room_id : RoomId) (sender : UserId) (event_type : EventType) (content : Content)
    (unsigned : Option (List (Bytes × Content))) (state_key : Option Bytes) :
    Option (Option EventId × Data) :=
  if state_key.isSome then
    match room_state s room_id with
    | none => none
    | some st =>
      match mapFind? st (EventType.roomPowerLevels, []) with
      | some pl_pdu =>
        match decodePowerLevels pl_pdu.content with
        | none => none
        | some power_levels =>
          match event_type with
          | EventType.roomMember =>
            pdu_append_rest refHash hashSign s now room_id sender event_type content
              unsigned state_key
          | _ =>
            if effectiveLevel power_levels sender ≤ 0 then some (none, s)
            else
              pdu_append_rest refHash hashSign s now room_id sender event_type content
                unsigned state_key
      | none =>
        pdu_append_rest refHash hashSign s now room_id sender event_type content
          unsigned state_key
  else
    pdu_append_rest refHash hashSign s now room_id sender event_type content
      unsigned state_key

/-- `pdus_since_pduid`: forward scan from a raw pdu id. -/
def pdus_since_pduid (s : Data) (room_id : RoomId) (pdu_id : Bytes) : List PduEvent :=
  gtScan s.pduid_pdu (room_id.bytes ++ [255]) s.pduid_pdu.length pdu_id

/-- `pdus_since`: all events of the room strictly after ordinal `since`. -/
def pdus_since (s : Data) (room_id : RoomId) (since : Nat) : List PduEvent :=
  pdus_since_pduid s room_id (room_id.bytes ++ [255] ++ be8 since)

/-- `pdus_all`. -/
def pdus_all (s : Data) (room_id : RoomId) : List PduEvent := pdus_since s room_id 0

/-- `pdus_until`: up to `mx` events of the room strictly before ordinal
`until_v`, newest first. -/
def pdus_until (s : Data) (room_id : RoomId) (until_v : Nat) (mx : Nat) : List PduEvent :=
  ltScan s.pduid_pdu (room_id.bytes ++ [255]) s.pduid_pdu.length
    (room_id.bytes ++ [255] ++ be8 until_v) mx

/-- `roomlatest_update` (read receipts): walk the room's slot range backward
removing the first slot whose trailing segment (after the last 0xff) is the
user id, then insert a fresh slot keyed room ++ 0xff ++ ordinal ++ 0xff ++
user id. -/
def roomlatest_update (s : Data) (user_id : UserId) (room_id : RoomId) (event : EduEvent) :
    Data :=
  let pre := room_id.bytes ++ [255]
  let t1 := slotRemove s.roomlatestid_roomlatest pre
    (fun k => decide (lastSeg k = user_id.bytes))
  let index := s.global + 1
  let key := pre ++ be8 index ++ 255 :: user_id.bytes
  { s with global := index, roomlatestid_roomlatest := tinsert key event t1 }

/-- `roomlatests_since`. -/
def roomlatests_since (s : Data) (room_id : RoomId) (since : Nat) : List EduEvent :=
  gtScan s.roomlatestid_roomlatest (room_id.bytes ++ [255])
    s.roomlatestid_roomlatest.length (room_id.bytes ++ [255] ++ be8 (since + 1))

/-- `roomlatests_all`. -/
def roomlatests_all (s : Data) (room_id : RoomId) : List EduEvent :=
  roomlatests_since s room_id 0

/-- The timeout field as `roomactive_add` reads it back from a key:
`u64_from_bytes(key.split(0xff).nth(1))`. -/
def activeTimeoutRead (k : Bytes) : Nat := u64_from_bytes ((splitSegs k).getD 1 [])

/-- The removal loop at the head of `roomactive_add`: starting at the range
start, remove entries while they carry the prefix and their timeout field
reads greater than the current time, stopping at the first other entry. -/
def evictLoop (pre : Bytes) (now : Nat) : Nat → Tree EduEvent → Bytes → Tree EduEvent
  | 0, t, _ => t
  | fuel + 1, t, cur =>
    match tget_gt t cur with
    | none => t
    | some (k, _) =>
      if startsWith pre k && decide (now < activeTimeoutRead k) then
        evictLoop pre now fuel (tremove t k) k
      else t

/-- `roomactive_add` (typing/presence): run the removal loop, then insert a
slot keyed room ++ 0xff ++ timeout ++ 0xff ++ ordinal. -/
def roomactive_add (s : Data) (now : Nat) (event : EduEvent) (room_id : RoomId)
    (timeout : Nat) : Data :=
  let pre := room_id.bytes ++ [255]
  let t1 := evictLoop pre now s.roomactiveid_roomactive.length s.roomactiveid_roomactive pre
  let index := s.global + 1
  let key := pre ++ be8 timeout ++ 255 :: be8 index
  { s with global := index, roomactiveid_roomactive := tinsert key event t1 }

/-- The scan loop of `roomactive_remove`: remove the first slot in scan
order whose serialized payload equals the argument. -/
def rmLoop (ev : EduEvent) (pre : Bytes) : Nat → Tree EduEvent → Bytes → Tree EduEvent
  | 0, t, _ => t
  | fuel + 1, t, cur =>
    match tget_gt t cur with
    | none => t
    | some (k, v) =>
      if startsWith pre k then
        if v = ev then tremove t k else rmLoop ev pre fuel t k
      else t

/-- `roomactive_remove`. -/
def roomactive_remove (s : Data) (event : EduEvent) (room_id : RoomId) : Data :=
  let pre := room_id.bytes ++ [255]
  { s with roomactiveid_roomactive :=
      rmLoop event pre s.roomactiveid_roomactive.length s.roomactiveid_roomactive pre }

/-- `roomactives_in`: scan strictly after room ++ 0xff ++ now, collecting
slots still in the prefix range (their timeout has not yet elapsed); if none
remain, return the canonical empty typing event.  The store is not modified:
expired slots are filtered out of the view, not evicted. -/
def roomactives_in (s : Data) (now : Nat) (room_id : RoomId) : List EduEvent :=
  let pre := room_id.bytes ++ [255]
  let actives := gtScan s.roomactiveid_roomactive pre
    s.roomactiveid_roomactive.length (pre ++ be8 now)
  if actives.isEmpty then [EduEvent.typing []] else actives

/-- The ephemeral scope prefix of the account-data slots:
room id (empty for global data) ++ 0xff ++ user id ++ 0xff. -/
def userdataPre (room_id : Option RoomId) (user_id : UserId) : Bytes :=
  (room_id.map RoomId.bytes).getD [] ++ [255] ++ user_id.bytes ++ [255]

/-- `room_userdata_update` (account data): walk the scope's slot range
backward removing the first slot whose third-from-last 0xff-segment equals
the user id (`current.rsplit(0xff).nth(2)`; the walk only reads keys that
carry the two-delimiter prefix, so the segment exists), then insert a fresh
slot keyed prefix ++ ordinal ++ type. -/
def room_userdata_update (s : Data) (room_id : Option RoomId) (user_id : UserId)
    (event : EduEvent) : Data :=
  let pre := userdataPre room_id user_id
  let t1 := slotRemove s.roomuserdataid_accountdata pre
    (fun k => decide ((splitSegs k).reverse.getD 2 [] = user_id.bytes))
  let index := s.global + 1
  let key := pre ++ be8 index ++ EduEvent.etypeOf event
  { s with global := index, roomuserdataid_accountdata := tinsert key event t1 }

/-- `room_userdata_since`: scan the scope's slots strictly after the token
and fold them into a map keyed by the payload's `type` field (a `HashMap`
in the source, so one binding per type). -/
def room_userdata_since (s : Data) (room_id : Option RoomId) (user_id : UserId)
    (since : Nat) : List (Bytes × EduEvent) :=
  let pre := userdataPre room_id user_id
  let vals := gtScan s.roomuserdataid_accountdata pre
    s.roomuserdataid_accountdata.length (pre ++ be8 (since + 1))
  vals.foldl (fun m v => mapInsert m (EduEvent.etypeOf v) v) []

/-- `room_userdata_all`. -/
def room_userdata_all (s : Data) (room_id : Option RoomId) (user_id : UserId) :
    List (Bytes × EduEvent) :=
  room_userdata_since s room_id user_id 0

/-- `room_userdata_get`. -/
def room_userdata_get (s : Data) (room_id : Option RoomId) (user_id : UserId)
    (kind : Bytes) : Option EduEvent :=
  mapFind? (room_userdata_all s room_id user_id) kind

/-! ## Federation access gate (src/api/server/utils.rs) -/

namespace AccessCheck

/-- `AccessCheck::check`: the decision over the joined results of the four
concurrently issued checks (acl_check, is_world_readable, server_in_room,
and — iff an event id was supplied — server_can_see_event).  A rejection is
a well-formed `Except.error` value carrying the reason, never a panic. -/
def check (acl_check world_readable server_in_room : Bool)
    (server_can_see : Option Bool) : Except String Unit :=
  if !acl_check then Except.error "Server access denied."
  else if !world_readable && !server_in_room then Except.error "Server is not in room."
  else if server_can_see == some false then
    Except.error "Server is not allowed to see event."
  else Except.ok ()

end AccessCheck

/-! ## Helper lemmas about the operations -/

theorem mapFind?_mapInsert_self {K V : Type} [DecidableEq K] (m : List (K × V)) (k : K)
    (v : V) : mapFind? (mapInsert m k v) k = some v := by
  induction m with
  | nil => simp [mapInsert, mapFind?, List.find?]
  | cons e rest ih =>
    rw [mapInsert]
    by_cases h : e.1 = k
    · rw [if_pos h]
      simp [mapFind?, List.find?]
    · rw [if_neg h]
      rw [mapFind?, List.find?_cons_of_neg _ (by simp [h])]
      exact ih

/-- The continuation after the authorization gate never reports a
rejection: its inner value is always the new event id. -/
theorem pdu_append_rest_not_rejected (refHash : PduEvent → Bytes)
    (hashSign : PduEvent → Bytes × List (Bytes × Bytes)) (s : Data) (now : Nat)
    (room_id : RoomId) (sender : UserId) (event_type : EventType) (content : Content)
    (unsigned : Option (List (Bytes × Content))) (state_key : Option Bytes) (s' : Data) :
    pdu_append_rest refHash hashSign s now room_id sender event_type content unsigned
      state_key ≠ some (none, s') := by
  intro hc
  rw [pdu_append_rest] at hc
  cases h : canonicalPdu s now room_id sender event_type content unsigned state_key with
  | none => rw [h] at hc; simp at hc
  | some c => rw [h] at hc; simp at hc

/-- A successful `pdu_append` went through `pdu_append_rest`. -/
theorem pdu_append_success_rest (refHash : PduEvent → Bytes)
    (hashSign : PduEvent → Bytes × List (Bytes × Bytes)) (s : Data) (now : Nat)
    (room_id : RoomId) (sender : UserId) (event_type : EventType) (content : Content)
    (unsigned : Option (List (Bytes × Content))) (state_key : Option Bytes)
    (eid : EventId) (s' : Data)
    (h : pdu_append refHash hashSign s now room_id sender event_type content unsigned
      state_key = some (some eid, s')) :
    pdu_append_rest refHash hashSign s now room_id sender event_type content unsigned
      state_key = some (some eid, s') := by
  rw [pdu_append] at h
  cases state_key with
  | none => simpa using h
  | some sk =>
    simp only [Option.isSome_some, if_true] at h
    cases h1 : room_state s room_id with
    | none => simp only [h1] at h; exact Option.noConfusion h
    | some st =>
      simp only [h1] at h
      cases h2 : mapFind? st (EventType.roomPowerLevels, []) with
      | none => simp only [h2] at h; exact h
      | some pl_pdu =>
        simp only [h2] at h
        cases h3 : decodePowerLevels pl_pdu.content with
        | none => simp only [h3] at h; exact Option.noConfusion h
        | some power_levels =>
          simp only [h3] at h
          cases event_type with
          | roomMember => exact h
          | roomPowerLevels =>
            by_cases h4 : effectiveLevel power_levels sender ≤ 0
            · rw [if_pos h4] at h; simp at h
            · rw [if_neg h4] at h; exact h
          | other t =>
            by_cases h4 : effectiveLevel power_levels sender ≤ 0
            · rw [if_pos h4] at h; simp at h
            · rw [if_neg h4] at h; exact h

instance {ε α : Type} [DecidableEq ε] [DecidableEq α] : DecidableEq (Except ε α) := fun a b =>
  match a, b with
  | .error e1, .error e2 =>
    match decEq e1 e2 with
    | isTrue h => isTrue (by rw [h])
    | isFalse h => isFalse (by intro hc; injection hc; exact h (by assumption))
  | .error _, .ok _ => isFalse (fun hc => Except.noConfusion hc)
  | .ok _, .error _ => isFalse (fun hc => Except.noConfusion hc)
  | .ok a1, .ok a2 =>
    match decEq a1 a2 with
    | isTrue h => isTrue (by rw [h])
    | isFalse h => isFalse (by intro hc; injection hc; exact h (by assumption))

/-! ## Claim theorems -/

/-- C5: the federation access gate admits or rejects on the four joined
check results in this priority order: a failed ACL check rejects with
"Server access denied." regardless of the rest (even a world-readable room);
otherwise a room that is neither world-readable nor joined by the origin
rejects with "Server is not in room."; otherwise a supplied event whose
visibility check returned false rejects with "Server is not allowed to see
event."; otherwise the request is admitted.  Every rejection is a
well-formed `Except.error` value. -/
theorem access_check_policy :
    ∀ (acl world inRoom : Bool) (canSee : Option Bool),
      (AccessCheck.check acl world inRoom canSee =
          Except.error "Server access denied." ↔ acl = false) ∧
      (AccessCheck.check acl world inRoom canSee =
          Except.error "Server is not in room." ↔
        acl = true ∧ world = false ∧ inRoom = false) ∧
      (AccessCheck.check acl world inRoom canSee =
          Except.error "Server is not allowed to see event." ↔
        acl = true ∧ (world = true ∨ inRoom = true) ∧ canSee = some false) ∧
      (AccessCheck.check acl world inRoom canSee = Except.ok () ↔
        acl = true ∧ (world = true ∨ inRoom = true) ∧ canSee ≠ some false) := by
  intro acl world inRoom canSee
  have hc : canSee = none ∨ canSee = some true ∨ canSee = some false := by
    rcases canSee with _ | b
    · exact Or.inl rfl
    · cases b
      · exact Or.inr (Or.inr rfl)
      · exact Or.inr (Or.inl rfl)
  rcases hc with h | h | h <;> subst h <;> cases acl <;> cases world <;> cases inRoom <;>
    decide

/-- C1: for a candidate event with a state key, `pdu_append` rejects (returns
the inner `none`) exactly when the room's current state projection holds a
power-levels event, the candidate is not a membership event, and the
sender's effective power level (per-user override, else `users_default`) is
not strictly greater than zero.  In particular: no power-levels state →
admitted; membership events → admitted unconditionally. -/
theorem auth_gate_policy (refHash : PduEvent → Bytes)
    (hashSign : PduEvent → Bytes × List (Bytes × Bytes)) (s : Data) (now : Nat)
    (room_id : RoomId) (sender : UserId) (event_type : EventType) (content : Content)
    (unsigned : Option (List (Bytes × Content))) (sk : Bytes) :
    (∃ s', pdu_append refHash hashSign s now room_id sender event_type content unsigned
        (some sk) = some (none, s')) ↔
      (∃ st pl_pdu power_levels,
        room_state s room_id = some st ∧
        mapFind? st (EventType.roomPowerLevels, []) = some pl_pdu ∧
        decodePowerLevels pl_pdu.content = some power_levels ∧
        event_type ≠ EventType.roomMember ∧
        effectiveLevel power_levels sender ≤ 0) := by
  constructor
  · rintro ⟨s', h⟩
    rw [pdu_append] at h
    simp only [Option.isSome_some, if_true] at h
    cases h1 : room_state s room_id with
    | none => simp only [h1] at h; exact Option.noConfusion h
    | some st =>
      simp only [h1] at h
      cases h2 : mapFind? st (EventType.roomPowerLevels, []) with
      | none =>
        simp only [h2] at h
        exact absurd h (pdu_append_rest_not_rejected _ _ _ _ _ _ _ _ _ _ _)
      | some pl_pdu =>
        simp only [h2] at h
        cases h3 : decodePowerLevels pl_pdu.content with
        | none => simp only [h3] at h; exact Option.noConfusion h
        | some power_levels =>
          simp only [h3] at h
          cases event_type with
          | roomMember => exact absurd h (pdu_append_rest_not_rejected _ _ _ _ _ _ _ _ _ _ _)
          | roomPowerLevels =>
            by_cases h4 : effectiveLevel power_levels sender ≤ 0
            · exact ⟨st, pl_pdu, power_levels, rfl, h2, h3, by simp, h4⟩
            · rw [if_neg h4] at h
              exact absurd h (pdu_append_rest_not_rejected _ _ _ _ _ _ _ _ _ _ _)
          | other t =>
            by_cases h4 : effectiveLevel power_levels sender ≤ 0
            · exact ⟨st, pl_pdu, power_levels, rfl, h2, h3, by simp, h4⟩
            · rw [if_neg h4] at h
              exact absurd h (pdu_append_rest_not_rejected _ _ _ _ _ _ _ _ _ _ _)
  · rintro ⟨st, pl_pdu, power_levels, h1, h2, h3, h4, h5⟩
    refine ⟨s, ?_⟩
    rw [pdu_append]
    simp only [Option.isSome_some, if_true]
    simp only [h1, h2, h3]
    cases event_type with
    | roomMember => exact absurd rfl h4
    | roomPowerLevels => rw [if_pos h5]
    | other t => rw [if_pos h5]

/-- C2: when the authorization gate rejects a state event (power-levels
present, non-membership kind, effective level ≤ 0), `pdu_append` returns the
well-formed negative result `some (none, ·)` — not a fault — and the store
is byte-for-byte unchanged: no PDU record, no frontier change, no secondary
or state index entry, no read-cursor update. -/
theorem auth_rejection_no_write (refHash : PduEvent → Bytes)
    (hashSign : PduEvent → Bytes × List (Bytes × Bytes)) (s : Data) (now : Nat)
    (room_id : RoomId) (sender : UserId) (event_type : EventType) (content : Content)
    (unsigned : Option (List (Bytes × Content))) (sk : Bytes)
    (st : List ((EventType × Bytes) × PduEvent)) (pl_pdu : PduEvent)
    (power_levels : PowerLevelsEventContent)
    (hst : room_state s room_id = some st)
    (hpl : mapFind? st (EventType.roomPowerLevels, []) = some pl_pdu)
    (hdec : decodePowerLevels pl_pdu.content = some power_levels)
    (hkind : event_type ≠ EventType.roomMember)
    (hlvl : effectiveLevel power_levels sender ≤ 0) :
    pdu_append refHash hashSign s now room_id sender event_type content unsigned (some sk)
      = some (none, s) ∧
    ∀ s', pdu_append refHash hashSign s now room_id sender event_type content unsigned
        (some sk) = some (none, s') →
      s'.pduid_pdu = s.pduid_pdu ∧ pdu_leaves_get s' room_id = pdu_leaves_get s room_id ∧
      s'.eventid_pduid = s.eventid_pduid ∧ s'.roomstateid_pdu = s.roomstateid_pdu ∧
      s'.roomuserid_lastread = s.roomuserid_lastread := by
  have hmain : pdu_append refHash hashSign s now room_id sender event_type content unsigned
      (some sk) = some (none, s) := by
    rw [pdu_append]
    simp only [Option.isSome_some, if_true]
    simp only [hst, hpl, hdec]
    cases event_type with
    | roomMember => exact absurd rfl hkind
    | roomPowerLevels => rw [if_pos hlvl]
    | other t => rw [if_pos hlvl]
  refine ⟨hmain, ?_⟩
  intro s' h'
  rw [hmain] at h'
  injection h' with h'
  have hs : s' = s := (Prod.ext_iff.mp h'.symm).2
  rw [hs]
  exact ⟨rfl, rfl, rfl, rfl, rfl⟩

/-- C10: for a non-state candidate (`state_key = None`) the authorization
gate is skipped, and the call never returns the inner `none`: whenever it
returns a value at all (no storage fault), that value carries `Some
event_id`.  The second conjunct exercises this on a concrete append into an
empty store. -/
theorem non_state_append_admitted :
    (∀ (refHash : PduEvent → Bytes) (hashSign : PduEvent → Bytes × List (Bytes × Bytes))
      (s : Data) (now : Nat) (room_id : RoomId) (sender : UserId)
      (event_type : EventType) (content : Content)
      (unsigned : Option (List (Bytes × Content))),
      ((pdu_append refHash hashSign s now room_id sender event_type content unsigned
        none).map (fun r => r.1.isSome)).getD true = true) ∧
    ((pdu_append (fun _ => strBytes "h") (fun _ => (strBytes "s", []))
      ⟨strBytes "srv", 0, [], [], [], [], [], [], [], []⟩ 0 ⟨strBytes "!a:x"⟩
      ⟨strBytes "@a:x"⟩ (EventType.other (strBytes "m.x")) (Content.other []) none
      none).map (fun r => r.1.isSome) = some true) := by
  constructor
  · intro refHash hashSign s now room_id sender event_type content unsigned
    rw [pdu_append]
    simp only [Option.isSome_none, Bool.false_eq_true, if_false]
    rw [pdu_append_rest]
    cases h : canonicalPdu s now room_id sender event_type content unsigned none with
    | none => rfl
    | some c => rfl
  · decide

/-! ## Concrete instances exercised by the witnesses -/

def wHash : PduEvent → Bytes := fun _ => strBytes "h"

def wSign : PduEvent → Bytes × List (Bytes × Bytes) := fun _ => (strBytes "s", [])

def wRoom : RoomId := ⟨strBytes "!a:x"⟩

def wAlice : UserId := ⟨strBytes "@a:x"⟩

def wEmpty : Data := ⟨strBytes "srv", 0, [], [], [], [], [], [], [], []⟩

def wPlPdu : PduEvent :=
  { event_id := ⟨strBytes "$p"⟩, room_id := wRoom, sender := wAlice,
    origin := strBytes "srv", origin_server_ts := 0, kind := EventType.roomPowerLevels,
    content := Content.powerLevels ⟨[], 0⟩, state_key := some [], prev_events := [],
    depth := 1, auth_events := [], redacts := none, unsigned := [],
    hashes := strBytes "aaa", signatures := [] }

/-- A store whose room `wRoom` carries a power-levels state event with
`users_default = 0` and no per-user overrides. -/
def wGuarded : Data :=
  { wEmpty with roomstateid_pdu :=
      [(wRoom.bytes ++ [255] ++ EventType.roomPowerLevels.bytes ++ [255], wPlPdu)] }

theorem auth_rejection_no_write_witness :
    pdu_append wHash wSign wGuarded 0 wRoom wAlice (EventType.other (strBytes "m.x"))
      (Content.other []) none (some []) = some (none, wGuarded) :=
  (auth_rejection_no_write wHash wSign wGuarded 0 wRoom wAlice
    (EventType.other (strBytes "m.x")) (Content.other []) none []
    [((EventType.roomPowerLevels, []), wPlPdu)] wPlPdu ⟨[], 0⟩
    (by decide) (by decide) (by decide) (by decide) (by decide)).1

/-! ## Anatomy of a successful append -/

theorem room_read_set_fields (s : Data) (room_id : RoomId) (user_id : UserId)
    (event_id : EventId) :
    (room_read_set s room_id user_id event_id).eventid_pduid = s.eventid_pduid ∧
    (room_read_set s room_id user_id event_id).pduid_pdu = s.pduid_pdu ∧
    (room_read_set s room_id user_id event_id).roomid_pduleaves = s.roomid_pduleaves ∧
    (room_read_set s room_id user_id event_id).global = s.global := by
  rw [room_read_set]
  cases pdu_get_count s event_id <;> exact ⟨rfl, rfl, rfl, rfl⟩

/-- Every successful `pdu_append` returns the content-derived id of the
canonical PDU it built; the signed PDU (the canonical one with the final id
and the capability-produced `hashes`/`signatures`) is retrievable under that
id; the frontier afterwards is exactly the new id; the counter advanced by
one. -/
theorem pdu_get_room_read_set (s : Data) (r : RoomId) (u : UserId) (e e2 : EventId) :
    pdu_get (room_read_set s r u e) e2 = pdu_get s e2 := by
  rw [room_read_set]
  cases pdu_get_count s e <;> rfl

theorem room_read_set_eventid (s : Data) (r : RoomId) (u : UserId) (e : EventId) :
    (room_read_set s r u e).eventid_pduid = s.eventid_pduid := by
  rw [room_read_set]
  cases pdu_get_count s e <;> rfl

theorem room_read_set_pduid (s : Data) (r : RoomId) (u : UserId) (e : EventId) :
    (room_read_set s r u e).pduid_pdu = s.pduid_pdu := by
  rw [room_read_set]
  cases pdu_get_count s e <;> rfl

theorem room_read_set_pduleaves (s : Data) (r : RoomId) (u : UserId) (e : EventId) :
    (room_read_set s r u e).roomid_pduleaves = s.roomid_pduleaves := by
  rw [room_read_set]
  cases pdu_get_count s e <;> rfl

theorem pdu_leaves_get_room_read_set (s : Data) (r : RoomId) (u : UserId) (e : EventId)
    (r2 : RoomId) : pdu_leaves_get (room_read_set s r u e) r2 = pdu_leaves_get s r2 := by
  rw [room_read_set]
  cases pdu_get_count s e <;> rfl

theorem global_room_read_set (s : Data) (r : RoomId) (u : UserId) (e : EventId) :
    (room_read_set s r u e).global = s.global := by
  rw [room_read_set]
  cases pdu_get_count s e <;> rfl

@[simp] theorem EventId.mk_bytes (e : EventId) : EventId.mk e.bytes = e := rfl

theorem appendWrites_pdu_get (hashSign : PduEvent → Bytes × List (Bytes × Bytes)) (s : Data)
    (room_id : RoomId) (sender : UserId) (event_type : EventType) (c : PduEvent)
    (eid : EventId) :
    pdu_get (appendWrites hashSign s room_id sender event_type c eid) eid =
      some (signedPdu hashSign c eid) := by
  rw [appendWrites]
  cases hsk : c.state_key <;>
    simp [hsk, pdu_get, room_read_set_eventid, room_read_set_pduid, tget_tinsert_self]

theorem appendWrites_leaves (hashSign : PduEvent → Bytes × List (Bytes × Bytes)) (s : Data)
    (room_id : RoomId) (sender : UserId) (event_type : EventType) (c : PduEvent)
    (eid : EventId) :
    pdu_leaves_get (appendWrites hashSign s room_id sender event_type c eid) room_id =
      [eid] := by
  rw [appendWrites]
  cases hsk : c.state_key <;>
    simp [hsk, pdu_leaves_get, room_read_set_pduleaves, pdu_leaves_replace,
      mapFind?_mapInsert_self]

theorem appendWrites_global (hashSign : PduEvent → Bytes × List (Bytes × Bytes)) (s : Data)
    (room_id : RoomId) (sender : UserId) (event_type : EventType) (c : PduEvent)
    (eid : EventId) :
    (appendWrites hashSign s room_id sender event_type c eid).global = s.global + 1 := by
  rw [appendWrites]
  cases hsk : c.state_key <;>
    simp [hsk, global_room_read_set, pdu_leaves_replace]

theorem pdu_append_success (refHash : PduEvent → Bytes)
    (hashSign : PduEvent → Bytes × List (Bytes × Bytes)) (s : Data) (now : Nat)
    (room_id : RoomId) (sender : UserId) (event_type : EventType) (content : Content)
    (unsigned : Option (List (Bytes × Content))) (state_key : Option Bytes)
    (eid : EventId) (s' : Data)
    (h : pdu_append refHash hashSign s now room_id sender event_type content unsigned
      state_key = some (some eid, s')) :
    ∃ c, canonicalPdu s now room_id sender event_type content unsigned state_key = some c ∧
      eid = assignedId refHash c ∧
      pdu_get s' eid = some (signedPdu hashSign c eid) ∧
      pdu_leaves_get s' room_id = [eid] ∧
      s'.global = s.global + 1 := by
  have hrest := pdu_append_success_rest refHash hashSign s now room_id sender event_type
    content unsigned state_key eid s' h
  rw [pdu_append_rest] at hrest
  cases hc : canonicalPdu s now room_id sender event_type content unsigned state_key with
  | none =>
    simp only [hc] at hrest
    exact Option.noConfusion hrest
  | some c =>
    simp only [hc] at hrest
    have hp := Prod.ext_iff.mp (Option.some_inj.mp hrest)
    have he : eid = assignedId refHash c := by
      have h1 := hp.1
      simp only at h1
      exact (Option.some_inj.mp h1).symm
    have hs' : s' = appendWrites hashSign s room_id sender event_type c eid := by
      have h2 := hp.2
      simp only at h2
      rw [← h2, he]
    refine ⟨c, rfl, he, ?_, ?_, ?_⟩
    · rw [hs']; exact appendWrites_pdu_get hashSign s room_id sender event_type c eid
    · rw [hs']; exact appendWrites_leaves hashSign s room_id sender event_type c eid
    · rw [hs']; exact appendWrites_global hashSign s room_id sender event_type c eid

/-- Fields of the canonical PDU built by `pdu_append`. -/
theorem canonicalPdu_fields (s : Data) (now : Nat) (room_id : RoomId) (sender : UserId)
    (event_type : EventType) (content : Content)
    (unsigned : Option (List (Bytes × Content))) (state_key : Option Bytes) (c : PduEvent)
    (h : canonicalPdu s now room_id sender event_type content unsigned state_key = some c) :
    ∃ prev_pdus, (pdu_leaves_get s room_id).mapM (fun e => pdu_get s e) = some prev_pdus ∧
      c.depth = (prev_pdus.map (fun p => p.depth)).foldr max 0 + 1 ∧
      c.prev_events = pdu_leaves_get s room_id ∧
      c.content = content ∧ c.sender = sender ∧ c.room_id = room_id ∧
      c.kind = event_type ∧ c.state_key = state_key := by
  rw [canonicalPdu] at h
  cases hm : (pdu_leaves_get s room_id).mapM (fun e => pdu_get s e) with
  | none =>
    simp only [hm] at h
    exact Option.noConfusion h
  | some prev_pdus =>
    simp only [hm] at h
    refine ⟨prev_pdus, rfl, ?_⟩
    cases state_key with
    | none =>
      have hc := (Option.some_inj.mp h).symm
      subst hc
      exact ⟨rfl, rfl, rfl, rfl, rfl, rfl, rfl⟩
    | some sk =>
      cases hrs : room_state s room_id with
      | none =>
        simp only [hrs] at h
        exact Option.noConfusion h
      | some st =>
        simp only [hrs] at h
        cases hf : mapFind? st (event_type, sk) with
        | none =>
          simp only [hf] at h
          have hc := (Option.some_inj.mp h).symm
          subst hc
          exact ⟨rfl, rfl, rfl, rfl, rfl, rfl, rfl⟩
        | some prev_pdu =>
          simp only [hf] at h
          have hc := (Option.some_inj.mp h).symm
          subst hc
          exact ⟨rfl, rfl, rfl, rfl, rfl, rfl, rfl⟩

/-- C7: a successful append assigns the new event depth 1 + the maximum
depth over the frontier events read at the start of the call, and depth 1
when the frontier was empty; in particular the depth is never below 1 + the
maximum frontier depth. -/
theorem append_depth (refHash : PduEvent → Bytes)
    (hashSign : PduEvent → Bytes × List (Bytes × Bytes)) (s : Data) (now : Nat)
    (room_id : RoomId) (sender : UserId) (event_type : EventType) (content : Content)
    (unsigned : Option (List (Bytes × Content))) (state_key : Option Bytes)
    (eid : EventId) (s' : Data)
    (h : pdu_append refHash hashSign s now room_id sender event_type content unsigned
      state_key = some (some eid, s')) :
    ∃ prev_pdus p,
      (pdu_leaves_get s room_id).mapM (fun e => pdu_get s e) = some prev_pdus ∧
      pdu_get s' eid = some p ∧
      p.depth = (prev_pdus.map (fun q => q.depth)).foldr max 0 + 1 ∧
      (prev_pdus.map (fun q => q.depth)).foldr max 0 + 1 ≤ p.depth ∧
      (pdu_leaves_get s room_id = [] → p.depth = 1) := by
  obtain ⟨c, hc, he, hget, hleaves, hglob⟩ := pdu_append_success refHash hashSign s now
    room_id sender event_type content unsigned state_key eid s' h
  obtain ⟨prev_pdus, hm, hd, hrest⟩ := canonicalPdu_fields s now room_id sender event_type
    content unsigned state_key c hc
  have hsd : (signedPdu hashSign c eid).depth = c.depth := rfl
  refine ⟨prev_pdus, signedPdu hashSign c eid, hm, hget, ?_, ?_, ?_⟩
  · rw [hsd, hd]
  · rw [hsd, hd]
  · intro hnil
    rw [hnil] at hm
    have hm2 : some ([] : List PduEvent) = some prev_pdus := hm
    have hpn : prev_pdus = [] := (Option.some_inj.mp hm2).symm
    rw [hsd, hd, hpn]
    rfl

/-- C8: immediately after a successful append the room's frontier is exactly
the one-element list holding the new event's id (all prior leaves cleared,
the new one inserted). -/
theorem frontier_after_append (refHash : PduEvent → Bytes)
    (hashSign : PduEvent → Bytes × List (Bytes × Bytes)) (s : Data) (now : Nat)
    (room_id : RoomId) (sender : UserId) (event_type : EventType) (content : Content)
    (unsigned : Option (List (Bytes × Content))) (state_key : Option Bytes)
    (eid : EventId) (s' : Data)
    (h : pdu_append refHash hashSign s now room_id sender event_type content unsigned
      state_key = some (some eid, s')) :
    pdu_leaves_get s' room_id = [eid] :=
  (pdu_append_success refHash hashSign s now room_id sender event_type content unsigned
    state_key eid s' h).choose_spec.2.2.2.1

/-- C9: a successful `append(room, sender, kind, content, none, none)` is
read back by `get`: the stored PDU carries exactly the input content,
sender, room id and kind; and the assigned event id is a deterministic
function of the canonical PDU — a second append whose canonical PDU is
identical receives the identical id. -/
theorem append_roundtrip (refHash : PduEvent → Bytes)
    (hashSign : PduEvent → Bytes × List (Bytes × Bytes)) (s : Data) (now : Nat)
    (room_id : RoomId) (sender : UserId) (event_type : EventType) (content : Content)
    (eid : EventId) (s' : Data)
    (h : pdu_append refHash hashSign s now room_id sender event_type content none none =
      some (some eid, s')) :
    (∃ p, pdu_get s' eid = some p ∧ p.content = content ∧ p.sender = sender ∧
      p.room_id = room_id ∧ p.kind = event_type) ∧
    (∃ c, canonicalPdu s now room_id sender event_type content none none = some c ∧
      eid = assignedId refHash c) ∧
    (∀ (s2 : Data) (now2 : Nat) (room2 : RoomId) (sender2 : UserId)
      (etype2 : EventType) (content2 : Content) (eid2 : EventId) (s2' : Data),
      pdu_append refHash hashSign s2 now2 room2 sender2 etype2 content2 none none =
        some (some eid2, s2') →
      canonicalPdu s2 now2 room2 sender2 etype2 content2 none none =
        canonicalPdu s now room_id sender event_type content none none →
      eid2 = eid) := by
  obtain ⟨c, hc, he, hget, hleaves, hglob⟩ := pdu_append_success refHash hashSign s now
    room_id sender event_type content none none eid s' h
  obtain ⟨prev_pdus, hm, hd, hprev, hcont, hsend, hroom, hkind, hsk⟩ :=
    canonicalPdu_fields s now room_id sender event_type content none none c hc
  refine ⟨⟨signedPdu hashSign c eid, hget, ?_, ?_, ?_, ?_⟩, ⟨c, hc, he⟩, ?_⟩
  · show c.content = content; exact hcont
  · show c.sender = sender; exact hsend
  · show c.room_id = room_id; exact hroom
  · show c.kind = event_type; exact hkind
  · intro s2 now2 room2 sender2 etype2 content2 eid2 s2' h2 hcan
    obtain ⟨c2, hc2, he2, _, _, _⟩ := pdu_append_success refHash hashSign s2 now2 room2
      sender2 etype2 content2 none none eid2 s2' h2
    rw [hcan, hc] at hc2
    have : c2 = c := (Option.some_inj.mp hc2).symm
    rw [he2, this, he]

/-! ## Witness runs: a concrete append into the empty store -/

def wRun : Option (Option EventId × Data) :=
  pdu_append wHash wSign wEmpty 0 wRoom wAlice (EventType.other (strBytes "m.x"))
    (Content.other []) none none

def wE : EventId := (wRun.bind (fun r => r.1)).getD (EventId.mk [])

def wS : Data := (wRun.map (fun r => r.2)).getD wEmpty

theorem wRun_eq : pdu_append wHash wSign wEmpty 0 wRoom wAlice
    (EventType.other (strBytes "m.x")) (Content.other []) none none =
    some (some wE, wS) := by decide

theorem append_depth_witness : (pdu_get wS wE).map (fun p => p.depth) = some 1 := by
  obtain ⟨prev_pdus, p, hm, hget, hd, hle, h1⟩ :=
    append_depth wHash wSign wEmpty 0 wRoom wAlice (EventType.other (strBytes "m.x"))
      (Content.other []) none none wE wS wRun_eq
  rw [hget, Option.map_some']
  rw [h1 (by decide)]

theorem frontier_after_append_witness : pdu_leaves_get wS wRoom = [wE] :=
  frontier_after_append wHash wSign wEmpty 0 wRoom wAlice
    (EventType.other (strBytes "m.x")) (Content.other []) none none wE wS wRun_eq

theorem append_roundtrip_witness :
    (pdu_get wS wE).map (fun p => (p.content, p.sender, p.room_id, p.kind)) =
      some (Content.other [], wAlice, wRoom, EventType.other (strBytes "m.x")) := by
  obtain ⟨⟨p, hget, hcont, hsend, hroom, hkind⟩, _, _⟩ :=
    append_roundtrip wHash wSign wEmpty 0 wRoom wAlice (EventType.other (strBytes "m.x"))
      (Content.other []) wE wS wRun_eq
  rw [hget, Option.map_some']
  rw [hcont, hsend, hroom, hkind]

/-! ## The typing/presence view (claim C6) -/

/-- Two delimited prefixes of the same key agree when neither identifier
contains the delimiter byte. -/
theorem append_delim_prefix_inj {a b x y : Bytes} (ha : 255 ∉ a) (hb : 255 ∉ b)
    (h : (a ++ 255 :: x) <+: (b ++ 255 :: y)) : a = b := by
  induction a generalizing b with
  | nil =>
    cases b with
    | nil => rfl
    | cons h2 t2 =>
      simp only [List.nil_append, List.cons_append, List.cons_prefix_cons] at h
      exact absurd (by simp [← h.1]) hb
  | cons h1 t1 ih =>
    cases b with
    | nil =>
      simp only [List.cons_append, List.nil_append, List.cons_prefix_cons] at h
      exact absurd (by simp [h.1]) ha
    | cons h2 t2 =>
      simp only [List.cons_append, List.cons_prefix_cons] at h
      have ht : t1 = t2 :=
        ih (fun hc => ha (List.mem_cons_of_mem _ hc)) (fun hc => hb (List.mem_cons_of_mem _ hc))
          h.2
      rw [h.1, ht]

theorem be8_inj_of_lt {a b : Nat} (ha : a < 2 ^ 64) (hb : b < 2 ^ 64)
    (h : be8 a = be8 b) : a = b := by
  by_contra hne
  rcases Nat.lt_or_ge a b with h1 | h1
  · have := lexLt_be8_of_lt ha hb
    rw [h, lexLt_irrefl] at this
    simp [h1] at this
  · have h2 : b < a := lt_of_le_of_ne h1 (fun hh => hne hh.symm)
    have := lexLt_be8_of_lt hb ha
    rw [h, lexLt_irrefl] at this
    simp [h2] at this

/-- The key layout written by `roomactive_add`:
room ++ 0xff ++ timeout ++ 0xff ++ ordinal. -/
def activeKey (rm : Bytes) (ti i : Nat) : Bytes :=
  rm ++ 255 :: (be8 ti ++ 255 :: be8 i)

/-- The scan filter of `roomactives_in` keeps exactly the slots of the
requested room whose timeout has not yet elapsed. -/
theorem activeKey_scan_pred (r : RoomId) (now : Nat) (rm : Bytes) (ti i : Nat)
    (hrm : ValidId rm) (hti : ti < 2 ^ 64) (hr : ValidId r.bytes) (hn : now < 2 ^ 64) :
    (startsWith (r.bytes ++ [255]) (activeKey rm ti i) &&
      lexLt (r.bytes ++ [255] ++ be8 now) (activeKey rm ti i)) =
    (decide (rm = r.bytes) && decide (now ≤ ti)) := by
  by_cases hroom : rm = r.bytes
  · subst hroom
    have hpre : startsWith (r.bytes ++ [255]) (activeKey r.bytes ti i) = true := by
      rw [startsWith_iff, activeKey]
      have heq : r.bytes ++ [255] ++ (be8 ti ++ 255 :: be8 i) =
          r.bytes ++ 255 :: (be8 ti ++ 255 :: be8 i) := by simp
      rw [← heq]
      exact List.prefix_append _ _
    rw [hpre]
    have hkey : activeKey r.bytes ti i = (r.bytes ++ [255]) ++ (be8 ti ++ 255 :: be8 i) := by
      rw [activeKey]; simp
    rw [hkey, lexLt_append_left]
    rw [lexLt_append_right_of_length_eq (255 :: be8 i) (by simp)]
    rw [lexLt_be8_of_lt hn hti]
    simp only [List.isEmpty_cons, Bool.not_false, Bool.and_true]
    by_cases hlt : now < ti
    · simp [hlt, Nat.le_of_lt hlt]
    · by_cases heq : now = ti
      · subst heq
        simp [hlt]
      · have : ¬ now ≤ ti := fun hc => heq (Nat.le_antisymm hc (Nat.le_of_not_lt hlt))
        have hne : be8 now ≠ be8 ti := fun hc => heq (be8_inj_of_lt hn hti hc)
        simp [hlt, this, hne]
  · have hpre : startsWith (r.bytes ++ [255]) (activeKey rm ti i) = false := by
      cases hc : startsWith (r.bytes ++ [255]) (activeKey rm ti i) with
      | false => rfl
      | true =>
        exfalso
        rw [startsWith_iff] at hc
        have : r.bytes ++ [255] = r.bytes ++ 255 :: ([] : Bytes) := rfl
        rw [this, activeKey] at hc
        exact hroom (append_delim_prefix_inj hr.2 hrm.2 hc).symm
    rw [hpre]
    simp [hroom]

/-- C6: `roomactives_in` returns exactly the slots of the scope whose
timeout (encoded in the key) has not yet elapsed — expired slots are
filtered from the view (the store itself is not modified by this read) —
and substitutes the canonical empty typing event when no live slot
remains. -/
theorem actives_in_filters_expired (now : Nat) (r : RoomId)
    (entries : List (Bytes × Nat × Nat × EduEvent)) (s : Data)
    (hdec : s.roomactiveid_roomactive =
      entries.map (fun q => (activeKey q.1 q.2.1 q.2.2.1, q.2.2.2)))
    (hs : TreeSorted s.roomactiveid_roomactive)
    (hv : ∀ q ∈ entries, ValidId q.1 ∧ q.2.1 < 2 ^ 64)
    (hr : ValidId r.bytes) (hn : now < 2 ^ 64) :
    roomactives_in s now r =
      (if (entries.filter (fun q => decide (q.1 = r.bytes) && decide (now ≤ q.2.1))).isEmpty
       then [EduEvent.typing []]
       else (entries.filter
          (fun q => decide (q.1 = r.bytes) && decide (now ≤ q.2.1))).map
          (fun q => q.2.2.2)) := by
  have hpre0 : (r.bytes ++ [255]) <+: r.bytes ++ [255] ++ be8 now :=
    List.prefix_append _ _
  have hscan := gtScan_eq (t := s.roomactiveid_roomactive) hs
    s.roomactiveid_roomactive.length (r.bytes ++ [255] ++ be8 now)
    hpre0 (List.length_filter_le _ _)
  simp only [roomactives_in]
  rw [hscan]
  rw [List.filter_filter, hdec, List.filter_map]
  have hcongr : List.filter
      ((fun e => startsWith (r.bytes ++ [255]) e.1 &&
        lexLt (r.bytes ++ [255] ++ be8 now) e.1) ∘
        (fun q : Bytes × Nat × Nat × EduEvent => (activeKey q.1 q.2.1 q.2.2.1, q.2.2.2)))
      entries =
      List.filter (fun q => decide (q.1 = r.bytes) && decide (now ≤ q.2.1)) entries := by
    apply List.filter_congr
    intro q hq
    have hvq := hv q hq
    exact activeKey_scan_pred r now q.1 q.2.1 q.2.2.1 hvq.1 hvq.2 hr hn
  rw [hcongr]
  rw [List.map_map]
  by_cases hemp :
      (entries.filter (fun q => decide (q.1 = r.bytes) && decide (now ≤ q.2.1))).isEmpty
  · rw [if_pos hemp, if_pos]
    rw [List.isEmpty_iff] at hemp ⊢
    rw [hemp]
    rfl
  · rw [if_neg hemp, if_neg]
    · rfl
    · rw [List.isEmpty_iff] at hemp ⊢
      intro hc
      exact hemp (by simpa using hc)

def wEv1 : EduEvent := EduEvent.other (strBytes "m.typing") (strBytes "1")

def wEv2 : EduEvent := EduEvent.other (strBytes "m.typing") (strBytes "2")

def wActiveEntries : List (Bytes × Nat × Nat × EduEvent) :=
  [(wRoom.bytes, 5, 1, wEv1), (wRoom.bytes, 100, 2, wEv2)]

/-- A store holding one expired (timeout 5) and one live (timeout 100)
typing slot for `wRoom`. -/
def wActive : Data :=
  { wEmpty with roomactiveid_roomactive :=
      wActiveEntries.map (fun q => (activeKey q.1 q.2.1 q.2.2.1, q.2.2.2)) }

theorem actives_in_filters_expired_witness : roomactives_in wActive 10 wRoom = [wEv2] := by
  have h := actives_in_filters_expired 10 wRoom wActiveEntries wActive rfl
    (by decide) (by decide) (by decide) (by decide)
  rw [h]
  decide

/-! ## since/until partition of the room log (claim C4) -/

/-- The primary key written by `pdu_append`: room ++ 0xff ++ ordinal. -/
def pduKey (rm : Bytes) (n : Nat) : Bytes := rm ++ 255 :: be8 n

theorem pduKey_scan_pred_gt (r : RoomId) (t : Nat) (rm : Bytes) (n : Nat)
    (hrm : ValidId rm) (hn : n < 2 ^ 64) (hr : ValidId r.bytes) (ht : t < 2 ^ 64) :
    (startsWith (r.bytes ++ [255]) (pduKey rm n) &&
      lexLt (r.bytes ++ [255] ++ be8 t) (pduKey rm n)) =
    (decide (rm = r.bytes) && decide (t < n)) := by
  by_cases hroom : rm = r.bytes
  · subst hroom
    have hkey : pduKey r.bytes n = (r.bytes ++ [255]) ++ be8 n := by rw [pduKey]; simp
    have hpre : startsWith (r.bytes ++ [255]) (pduKey r.bytes n) = true := by
      rw [startsWith_iff, hkey]
      exact List.prefix_append _ _
    rw [hpre, hkey, lexLt_append_left, lexLt_be8_of_lt ht hn]
    simp
  · have hpre : startsWith (r.bytes ++ [255]) (pduKey rm n) = false := by
      cases hc : startsWith (r.bytes ++ [255]) (pduKey rm n) with
      | false => rfl
      | true =>
        exfalso
        rw [startsWith_iff] at hc
        have h0 : r.bytes ++ [255] = r.bytes ++ 255 :: ([] : Bytes) := rfl
        rw [h0, pduKey] at hc
        exact hroom (append_delim_prefix_inj hr.2 hrm.2 hc).symm
    rw [hpre]
    simp [hroom]

theorem pduKey_scan_pred_lt (r : RoomId) (t : Nat) (rm : Bytes) (n : Nat)
    (hrm : ValidId rm) (hn : n < 2 ^ 64) (hr : ValidId r.bytes) (ht : t < 2 ^ 64) :
    (startsWith (r.bytes ++ [255]) (pduKey rm n) &&
      lexLt (pduKey rm n) (r.bytes ++ [255] ++ be8 t)) =
    (decide (rm = r.bytes) && decide (n < t)) := by
  by_cases hroom : rm = r.bytes
  · subst hroom
    have hkey : pduKey r.bytes n = (r.bytes ++ [255]) ++ be8 n := by rw [pduKey]; simp
    have hpre : startsWith (r.bytes ++ [255]) (pduKey r.bytes n) = true := by
      rw [startsWith_iff, hkey]
      exact List.prefix_append _ _
    rw [hpre, hkey, lexLt_append_left, lexLt_be8_of_lt hn ht]
    simp
  · have hpre : startsWith (r.bytes ++ [255]) (pduKey rm n) = false := by
      cases hc : startsWith (r.bytes ++ [255]) (pduKey rm n) with
      | false => rfl
      | true =>
        exfalso
        rw [startsWith_iff] at hc
        have h0 : r.bytes ++ [255] = r.bytes ++ 255 :: ([] : Bytes) := rfl
        rw [h0, pduKey] at hc
        exact hroom (append_delim_prefix_inj hr.2 hrm.2 hc).symm
    rw [hpre]
    simp [hroom]

/-- The characterization of `pdus_since` over a decomposed store. -/
theorem pdus_since_eq (s : Data) (r : RoomId) (t : Nat)
    (entries : List (Bytes × Nat × PduEvent))
    (hdec : s.pduid_pdu = entries.map (fun q => (pduKey q.1 q.2.1, q.2.2)))
    (hs : TreeSorted s.pduid_pdu)
    (hv : ∀ q ∈ entries, ValidId q.1 ∧ 1 ≤ q.2.1 ∧ q.2.1 < 2 ^ 64)
    (hr : ValidId r.bytes) (ht : t < 2 ^ 64) :
    pdus_since s r t =
      (entries.filter (fun q => decide (q.1 = r.bytes) && decide (t < q.2.1))).map
        (fun q => q.2.2) := by
  rw [pdus_since, pdus_since_pduid]
  have hb8 : r.bytes ++ [255] ++ be8 t = (r.bytes ++ [255]) ++ be8 t := rfl
  rw [gtScan_eq hs s.pduid_pdu.length ((r.bytes ++ [255]) ++ be8 t)
    (List.prefix_append _ _) (List.length_filter_le _ _)]
  rw [List.filter_filter, hdec, List.filter_map]
  rw [List.filter_congr (fun q hq => by
    have hvq := hv q hq
    exact pduKey_scan_pred_gt r t q.1 q.2.1 hvq.1 hvq.2.2 hr ht)]
  rw [List.map_map]
  rfl

/-- The characterization of `pdus_until` over a decomposed store. -/
theorem pdus_until_eq (s : Data) (r : RoomId) (t mx : Nat)
    (entries : List (Bytes × Nat × PduEvent))
    (hdec : s.pduid_pdu = entries.map (fun q => (pduKey q.1 q.2.1, q.2.2)))
    (hs : TreeSorted s.pduid_pdu)
    (hv : ∀ q ∈ entries, ValidId q.1 ∧ 1 ≤ q.2.1 ∧ q.2.1 < 2 ^ 64)
    (hr : ValidId r.bytes) (ht : t < 2 ^ 64) (hmx : entries.length ≤ mx) :
    pdus_until s r t mx =
      ((entries.filter (fun q => decide (q.1 = r.bytes) && decide (q.2.1 < t))).map
        (fun q => q.2.2)).reverse := by
  rw [pdus_until]
  have hmx2 : (List.filter (fun e => startsWith (r.bytes ++ [255]) e.1)
      (s.pduid_pdu.filter (fun e => lexLt e.1 ((r.bytes ++ [255]) ++ be8 t)))).length ≤ mx := by
    calc (List.filter (fun e => startsWith (r.bytes ++ [255]) e.1)
        (s.pduid_pdu.filter (fun e => lexLt e.1 ((r.bytes ++ [255]) ++ be8 t)))).length
        ≤ (s.pduid_pdu.filter (fun e => lexLt e.1 ((r.bytes ++ [255]) ++ be8 t))).length :=
          List.length_filter_le _ _
      _ ≤ s.pduid_pdu.length := List.length_filter_le _ _
      _ = entries.length := by rw [hdec, List.length_map]
      _ ≤ mx := hmx
  rw [show r.bytes ++ [255] ++ be8 t = (r.bytes ++ [255]) ++ be8 t from rfl]
  rw [ltScan_eq hs s.pduid_pdu.length ((r.bytes ++ [255]) ++ be8 t) mx
    (List.prefix_append _ _) (List.length_filter_le _ _) hmx2]
  rw [List.filter_filter, hdec, List.filter_map]
  rw [List.filter_congr (fun q hq => by
    have hvq := hv q hq
    exact pduKey_scan_pred_lt r t q.1 q.2.1 hvq.1 hvq.2.2 hr ht)]
  rw [← List.map_reverse, List.map_map, List.map_reverse]
  rfl

/-- C4: for a valid boundary ordinal `t` (one not occupied by a PDU of the
room), the backward page `until(room, t, ∞)` (reversed into forward order)
followed by `since(room, t)` is exactly the full ordered room log, and hence
`since(room, t) ++ until(room, t, ∞)` is a permutation of the full log —
no duplicates, no gaps. -/
theorem since_until_partition (s : Data) (r : RoomId) (t mx : Nat)
    (entries : List (Bytes × Nat × PduEvent))
    (hdec : s.pduid_pdu = entries.map (fun q => (pduKey q.1 q.2.1, q.2.2)))
    (hs : TreeSorted s.pduid_pdu)
    (hv : ∀ q ∈ entries, ValidId q.1 ∧ 1 ≤ q.2.1 ∧ q.2.1 < 2 ^ 64)
    (hr : ValidId r.bytes) (ht : t < 2 ^ 64)
    (hb : ∀ q ∈ entries, q.1 = r.bytes → q.2.1 ≠ t)
    (hmx : entries.length ≤ mx) :
    (pdus_until s r t mx).reverse ++ pdus_since s r t = pdus_all s r ∧
    (pdus_since s r t ++ pdus_until s r t mx).Perm (pdus_all s r) := by
  have hsince := pdus_since_eq s r t entries hdec hs hv hr ht
  have huntil := pdus_until_eq s r t mx entries hdec hs hv hr ht hmx
  have hall : pdus_all s r =
      (entries.filter (fun q => decide (q.1 = r.bytes))).map (fun q => q.2.2) := by
    rw [pdus_all, pdus_since_eq s r 0 entries hdec hs hv hr (by norm_num)]
    congr 1
    apply List.filter_congr
    intro q hq
    have hvq := hv q hq
    have : (0 : Nat) < q.2.1 := hvq.2.1
    simp [this]
  have hentries_sorted : List.Pairwise
      (fun a b : Bytes × Nat × PduEvent =>
        lexLt (pduKey a.1 a.2.1) (pduKey b.1 b.2.1) = true) entries := by
    have := hs
    rw [TreeSorted, hdec, List.pairwise_map] at this
    exact this
  have hsplit := filter_append_filter_split hentries_sorted
    (fun q => decide (q.1 = r.bytes) && decide (q.2.1 < t))
    (fun q => decide (q.1 = r.bytes) && decide (t < q.2.1))
    (by intro a; simp; omega)
    (by
      intro a ha b hb2 hR hhigh
      simp only [Bool.and_eq_true, decide_eq_true_eq] at hhigh
      cases hcb : (decide (b.1 = r.bytes) && decide (b.2.1 < t)) with
      | false => exact hcb
      | true =>
        exfalso
        simp only [Bool.and_eq_true, decide_eq_true_eq] at hcb
        have hva := hv a ha
        have hvb := hv b hb2
        rw [hhigh.1, hcb.1] at hR
        have hkeys : pduKey r.bytes a.2.1 = (r.bytes ++ [255]) ++ be8 a.2.1 := by
          rw [pduKey]; simp
        have hkeys2 : pduKey r.bytes b.2.1 = (r.bytes ++ [255]) ++ be8 b.2.1 := by
          rw [pduKey]; simp
        rw [hkeys, hkeys2, lexLt_append_left, lexLt_be8_of_lt hva.2.2 hvb.2.2] at hR
        simp only [decide_eq_true_eq] at hR
        omega)
  have hunion : entries.filter (fun q =>
        (decide (q.1 = r.bytes) && decide (q.2.1 < t)) ||
        (decide (q.1 = r.bytes) && decide (t < q.2.1))) =
      entries.filter (fun q => decide (q.1 = r.bytes)) := by
    apply List.filter_congr
    intro q hq
    by_cases hqr : q.1 = r.bytes
    · have hqb := hb q hq hqr
      simp only [hqr, decide_True, Bool.true_and]
      have : q.2.1 < t ∨ t < q.2.1 := by omega
      rcases this with h1 | h1 <;> simp [h1]
    · simp [hqr]
  have hmain : (pdus_until s r t mx).reverse ++ pdus_since s r t = pdus_all s r := by
    rw [hsince, huntil, hall, List.reverse_reverse, ← List.map_append, hsplit, hunion]
  refine ⟨hmain, ?_⟩
  have h1 : (pdus_since s r t ++ pdus_until s r t mx).Perm
      (pdus_until s r t mx ++ pdus_since s r t) := List.perm_append_comm
  have h2 : (pdus_until s r t mx ++ pdus_since s r t).Perm
      ((pdus_until s r t mx).reverse ++ pdus_since s r t) :=
    ((List.reverse_perm (pdus_until s r t mx)).symm).append_right (pdus_since s r t)
  have h3 : ((pdus_until s r t mx).reverse ++ pdus_since s r t).Perm (pdus_all s r) := by
    rw [hmain]
  exact (h1.trans h2).trans h3

def wPdu1 : PduEvent :=
  { wPlPdu with
    event_id := ⟨strBytes "$1"⟩
    kind := EventType.other (strBytes "m.x")
    content := Content.other [49]
    state_key := none }

def wPdu3 : PduEvent :=
  { wPlPdu with
    event_id := ⟨strBytes "$3"⟩
    kind := EventType.other (strBytes "m.x")
    content := Content.other [51]
    state_key := none }

def wLogEntries : List (Bytes × Nat × PduEvent) :=
  [(wRoom.bytes, 1, wPdu1), (wRoom.bytes, 3, wPdu3)]

/-- A room log with PDUs at ordinals 1 and 3; ordinal 2 is a valid
boundary. -/
def wLog : Data :=
  { wEmpty with pduid_pdu := wLogEntries.map (fun q => (pduKey q.1 q.2.1, q.2.2)) }

theorem since_until_partition_witness :
    (pdus_until wLog wRoom 2 10).reverse ++ pdus_since wLog wRoom 2 = pdus_all wLog wRoom :=
  (since_until_partition wLog wRoom 2 10 wLogEntries rfl (by decide) (by decide)
    (by decide) (by decide) (by decide) (by decide)).1

/-! ## The ephemeral single-slot pattern (claim C3) -/

theorem mem_tinsert {V : Type} {t : Tree V} {k : Bytes} {v : V} {e : Bytes × V}
    (he : e ∈ tinsert k v t) : e = (k, v) ∨ e ∈ t := by
  induction t with
  | nil => simpa [tinsert] using he
  | cons f fs ih =>
    rw [tinsert] at he
    by_cases h1 : lexLt k f.1
    · rw [if_pos h1] at he
      rcases List.mem_cons.mp he with h | h
      · exact Or.inl h
      · exact Or.inr h
    · rw [if_neg h1] at he
      by_cases h2 : k = f.1
      · rw [if_pos h2] at he
        rcases List.mem_cons.mp he with h | h
        · exact Or.inl h
        · exact Or.inr (List.mem_cons_of_mem _ h)
      · rw [if_neg h2] at he
        rcases List.mem_cons.mp he with h | h
        · exact Or.inr (h ▸ List.mem_cons_self _ _)
        · rcases ih h with hh | hh
          · exact Or.inl hh
          · exact Or.inr (List.mem_cons_of_mem _ hh)

theorem walkRemove_cases {V : Type} (t : Tree V) (pre : Bytes) (mtch : Bytes → Bool) :
    ∀ (fuel : Nat) (cur : Bytes),
      walkRemove t pre mtch fuel cur = t ∨
      ∃ k, walkRemove t pre mtch fuel cur = tremove t k := by
  intro fuel
  induction fuel with
  | zero => intro cur; exact Or.inl rfl
  | succ fuel ih =>
    intro cur
    rw [walkRemove]
    cases hpre : startsWith pre cur with
    | false => exact Or.inl (by simp)
    | true =>
      simp only [Bool.true_eq_false, if_false]
      cases hm : mtch cur with
      | true => exact Or.inr ⟨cur, by simp⟩
      | false =>
        simp only [Bool.false_eq_true, if_false]
        cases tget_lt t cur with
        | none => exact Or.inl rfl
        | some kv => exact ih kv.1

theorem slotRemove_sorted {V : Type} {t : Tree V} {pre : Bytes} {mtch : Bytes → Bool}
    (hs : TreeSorted t) : TreeSorted (slotRemove t pre mtch) := by
  rw [slotRemove]
  cases scanPrefixLast t pre with
  | none => exact hs
  | some c =>
    show TreeSorted (walkRemove t pre mtch t.length c)
    rcases walkRemove_cases t pre mtch t.length c with h | ⟨k, h⟩
    · rw [h]; exact hs
    · rw [h]; exact tremove_sorted hs k

theorem slotRemove_subset {V : Type} {t : Tree V} {pre : Bytes} {mtch : Bytes → Bool}
    {e : Bytes × V} (he : e ∈ slotRemove t pre mtch) : e ∈ t := by
  rw [slotRemove] at he
  cases hsc : scanPrefixLast t pre with
  | none =>
    rw [hsc] at he
    exact he
  | some c =>
    rw [hsc] at he
    have he2 : e ∈ walkRemove t pre mtch t.length c := he
    rcases walkRemove_cases t pre mtch t.length c with h | ⟨k, h⟩
    · rw [h] at he2; exact he2
    · rw [h] at he2
      exact (List.eraseP_sublist t).subset he2

theorem slotRemove_no_match {V : Type} {t : Tree V} {pre : Bytes} {mtch : Bytes → Bool}
    (hs : TreeSorted t)
    (hnone : ∀ e ∈ t, startsWith pre e.1 = true → mtch e.1 = false) :
    slotRemove t pre mtch = t := by
  rw [slotRemove]
  cases hsc : scanPrefixLast t pre with
  | none => rfl
  | some c =>
    obtain ⟨⟨v, hv⟩, hcp, _⟩ := scanPrefixLast_some hs hsc
    show walkRemove t pre mtch t.length c = t
    exact walkRemove_no_match hs hnone t.length c ⟨v, hv⟩

theorem slotRemove_found {V : Type} {t : Tree V} {pre : Bytes} {mtch : Bytes → Bool}
    {k0 : Bytes} {v0 : V} (hs : TreeSorted t) (hmem : (k0, v0) ∈ t)
    (hpre0 : startsWith pre k0 = true) (hm0 : mtch k0 = true)
    (huniq : ∀ e ∈ t, startsWith pre e.1 = true → mtch e.1 = true → e.1 = k0) :
    slotRemove t pre mtch = tremove t k0 := by
  rw [slotRemove]
  cases hsc : scanPrefixLast t pre with
  | none =>
    exfalso
    have h0 := scanPrefixLast_none hsc (k0, v0) hmem
    rw [hpre0] at h0
    exact Bool.noConfusion h0
  | some c =>
    obtain ⟨⟨v, hv⟩, hcp, hbound⟩ := scanPrefixLast_some hs hsc
    have hord : k0 = c ∨ lexLt k0 c = true := hbound (k0, v0) hmem hpre0
    have hlen : (t.filter (fun e => lexLt e.1 c)).length < t.length := by
      rw [List.length_filter_lt_length_iff_exists]
      exact ⟨(c, v), hv, by simp [lexLt_irrefl]⟩
    show walkRemove t pre mtch t.length c = tremove t k0
    exact walkRemove_found hs hpre0 hm0 huniq t.length c ⟨v, hv⟩ hcp ⟨v0, hmem⟩ hord hlen

/-- The number of live slots of a tree whose key satisfies `p`. -/
def keyCount {V : Type} (t : Tree V) (p : Bytes → Bool) : Nat :=
  t.countP (fun e => p e.1)

/-- The key shape of a user's receipt slot in a room's scope: the scope
prefix, and the user id as the segment after the last delimiter. -/
def receiptSlotP (r : RoomId) (u : UserId) (k : Bytes) : Bool :=
  startsWith (r.bytes ++ [255]) k && decide (lastSeg k = u.bytes)

theorem keyCount_tinsert_of_zero {V : Type} {t : Tree V} {p : Bytes → Bool} {k : Bytes}
    (v : V) (hk : p k = true) (hz : keyCount t p = 0) :
    keyCount (tinsert k v t) p = 1 := by
  induction t with
  | nil => simp [keyCount, tinsert, List.countP_cons, hk]
  | cons e rest ih =>
    rw [keyCount, List.countP_cons] at hz
    have hz1 : List.countP (fun e => p e.1) rest = 0 ∧ p e.1 = false := by
      by_cases he : p e.1 = true
      · rw [if_pos he] at hz; omega
      · rw [if_neg he] at hz
        exact ⟨hz, by simpa using he⟩
    obtain ⟨hr, he⟩ := hz1
    rw [tinsert]
    by_cases h1 : lexLt k e.1
    · rw [if_pos h1]
      simp [keyCount, List.countP_cons, hk, he, hr]
    · rw [if_neg h1]
      by_cases h2 : k = e.1
      · exact absurd (h2 ▸ hk) (by rw [he]; simp)
      · rw [if_neg h2, keyCount, List.countP_cons, he]
        simp only [Bool.false_eq_true, if_false, Nat.add_zero]
        exact ih hr

/-- The removal walk of a single-slot `update` leaves no slot of the subject:
a subject count of at most one drops to zero. -/
theorem keyCount_slotRemove {V : Type} {t : Tree V} {pre : Bytes} {mtch : Bytes → Bool}
    (hs : TreeSorted t)
    (hcnt : keyCount t (fun k => startsWith pre k && mtch k) ≤ 1) :
    keyCount (slotRemove t pre mtch) (fun k => startsWith pre k && mtch k) = 0 := by
  rw [keyCount] at hcnt
  rcases Nat.lt_or_ge (t.countP (fun e => startsWith pre e.1 && mtch e.1)) 1 with hc | hc
  · have hc0 : t.countP (fun e => startsWith pre e.1 && mtch e.1) = 0 := by omega
    have hnone : ∀ e ∈ t, startsWith pre e.1 = true → mtch e.1 = false := by
      intro e he hp
      have hne := List.countP_eq_zero.mp hc0 e he
      cases hm : mtch e.1 with
      | false => rfl
      | true => exact absurd (by rw [hp, hm]; rfl) hne
    rw [slotRemove_no_match hs hnone, keyCount, hc0]
  · have hc1 : t.countP (fun e => startsWith pre e.1 && mtch e.1) = 1 := by omega
    rw [List.countP_eq_length_filter] at hc1
    obtain ⟨x, hx⟩ := List.length_eq_one.mp hc1
    have hxmem : x ∈ t.filter (fun e => startsWith pre e.1 && mtch e.1) := by
      rw [hx]; exact List.mem_singleton.mpr rfl
    have hxt := (List.mem_filter.mp hxmem).1
    have hxp := (List.mem_filter.mp hxmem).2
    have hxpre : startsWith pre x.1 = true := (Bool.and_eq_true _ _).mp hxp |>.1
    have hxm : mtch x.1 = true := (Bool.and_eq_true _ _).mp hxp |>.2
    have hmem : (x.1, x.2) ∈ t := by rw [Prod.mk.eta]; exact hxt
    have huniq : ∀ e ∈ t, startsWith pre e.1 = true → mtch e.1 = true → e.1 = x.1 := by
      intro e he h1 h2
      have hef : e ∈ t.filter (fun e => startsWith pre e.1 && mtch e.1) :=
        List.mem_filter.mpr ⟨he, by rw [h1, h2]; rfl⟩
      rw [hx] at hef
      rw [List.mem_singleton.mp hef]
    have hrem : slotRemove t pre mtch = tremove t x.1 :=
      slotRemove_found hs hmem hxpre hxm huniq
    have huniq2 : ∀ e ∈ t, (startsWith pre e.1 && mtch e.1) = true → e = (x.1, x.2) := by
      intro e he hp
      have hef : e ∈ t.filter (fun e => startsWith pre e.1 && mtch e.1) :=
        List.mem_filter.mpr ⟨he, hp⟩
      rw [hx] at hef
      rw [List.mem_singleton.mp hef, Prod.mk.eta]
    rw [hrem, keyCount]
    exact countP_tremove_unique hs hmem (by rw [Prod.mk.eta]; exact hxp) huniq2

/-- A slot key with a positive ordinal below the counter bound lies strictly
after the scan start `pre ++ be8 1` used by the `all(scope)` readouts. -/
theorem lexLt_scan_start {idx : Nat} (pre rest : Bytes) (h1 : 1 ≤ idx)
    (h2 : idx < 2 ^ 64) (ht : rest ≠ []) :
    lexLt (pre ++ be8 1) (pre ++ be8 idx ++ rest) = true := by
  rw [List.append_assoc, lexLt_append_left,
    lexLt_append_right_of_length_eq rest (by simp)]
  rcases Nat.lt_or_ge 1 idx with h3 | h3
  · rw [lexLt_be8_of_lt (by norm_num) h2]
    simp [h3]
  · have h4 : idx = 1 := by omega
    subst h4
    cases rest with
    | nil => exact absurd rfl ht
    | cons a as => simp [lexLt_irrefl]

/-- One `roomlatest_update` call (data.rs lines 682-736): the subject's slot
count becomes exactly one, the tree stays sorted, and the counter advances by
one. -/
theorem roomlatest_update_step {s : Data} {u : UserId} {r : RoomId} (ev : EduEvent)
    (hu : (255 : Nat) ∉ u.bytes)
    (hs : TreeSorted s.roomlatestid_roomlatest)
    (hcnt : keyCount s.roomlatestid_roomlatest (receiptSlotP r u) ≤ 1) :
    TreeSorted (roomlatest_update s u r ev).roomlatestid_roomlatest ∧
      keyCount (roomlatest_update s u r ev).roomlatestid_roomlatest (receiptSlotP r u) = 1 ∧
      (roomlatest_update s u r ev).global = s.global + 1 := by
  have htree : (roomlatest_update s u r ev).roomlatestid_roomlatest =
      tinsert (r.bytes ++ [255] ++ be8 (s.global + 1) ++ 255 :: u.bytes) ev
        (slotRemove s.roomlatestid_roomlatest (r.bytes ++ [255])
          (fun k => decide (lastSeg k = u.bytes))) := rfl
  have hz : keyCount (slotRemove s.roomlatestid_roomlatest (r.bytes ++ [255])
      (fun k => decide (lastSeg k = u.bytes))) (receiptSlotP r u) = 0 :=
    keyCount_slotRemove hs hcnt
  have hk : receiptSlotP r u (r.bytes ++ [255] ++ be8 (s.global + 1) ++ 255 :: u.bytes) =
      true := by
    rw [receiptSlotP]
    have h1 : startsWith (r.bytes ++ [255])
        (r.bytes ++ [255] ++ be8 (s.global + 1) ++ 255 :: u.bytes) = true :=
      startsWith_iff.mpr ((List.prefix_append _ _).trans (List.prefix_append _ _))
    have h2 : lastSeg (r.bytes ++ [255] ++ be8 (s.global + 1) ++ 255 :: u.bytes) =
        u.bytes := lastSeg_append (r.bytes ++ [255] ++ be8 (s.global + 1)) u.bytes hu
    rw [h1, h2]
    simp
  refine ⟨?_, ?_, rfl⟩
  · rw [htree]; exact tinsert_sorted (slotRemove_sorted hs) _ _
  · rw [htree]; exact keyCount_tinsert_of_zero ev hk hz

/-- Sequential `roomlatest_update` calls preserve sortedness and the
at-most-one-slot invariant, and advance the counter once per call. -/
theorem roomlatest_fold_inv (u : UserId) (r : RoomId) (hu : (255 : Nat) ∉ u.bytes) :
    ∀ (evs : List EduEvent) (s : Data),
      TreeSorted s.roomlatestid_roomlatest →
      keyCount s.roomlatestid_roomlatest (receiptSlotP r u) ≤ 1 →
      TreeSorted ((evs.foldl (fun st e => roomlatest_update st u r e) s).roomlatestid_roomlatest) ∧
        keyCount ((evs.foldl (fun st e => roomlatest_update st u r e) s).roomlatestid_roomlatest)
          (receiptSlotP r u) ≤ 1 ∧
        (evs.foldl (fun st e => roomlatest_update st u r e) s).global = s.global + evs.length := by
  intro evs
  induction evs with
  | nil => intro s h1 h2; exact ⟨h1, h2, by simp⟩
  | cons e es ih =>
    intro s h1 h2
    obtain ⟨ha, hb, hc⟩ := roomlatest_update_step e hu h1 h2
    simp only [List.foldl_cons, List.length_cons]
    obtain ⟨ia, ib, ic⟩ := ih (roomlatest_update s u r e) ha (Nat.le_of_eq hb)
    exact ⟨ia, ib, by rw [ic, hc]; omega⟩

/-- After one `roomlatest_update`, the fresh slot's payload is listed by the
`roomlatests_all` readout of the room: the scan starts at the scope prefix
plus ordinal one, and the fresh ordinal is at least one. -/
theorem roomlatest_update_all_mem {s : Data} {u : UserId} {r : RoomId} (ev : EduEvent)
    (hs : TreeSorted s.roomlatestid_roomlatest)
    (hg : s.global + 1 < 2 ^ 64) :
    ev ∈ roomlatests_all (roomlatest_update s u r ev) r := by
  have hs2 : TreeSorted (roomlatest_update s u r ev).roomlatestid_roomlatest :=
    tinsert_sorted (slotRemove_sorted hs) _ _
  have hpre : (r.bytes ++ [255]) <+: r.bytes ++ [255] ++ be8 (0 + 1) :=
    List.prefix_append _ _
  have hscan := gtScan_eq hs2
    ((roomlatest_update s u r ev).roomlatestid_roomlatest.length)
    (r.bytes ++ [255] ++ be8 (0 + 1)) hpre
    ((List.filter_sublist _).length_le)
  rw [roomlatests_all, roomlatests_since, hscan]
  refine List.mem_map.mpr
    ⟨(r.bytes ++ [255] ++ be8 (s.global + 1) ++ 255 :: u.bytes, ev), ?_, rfl⟩
  refine List.mem_filter.mpr ⟨List.mem_filter.mpr ⟨?_, ?_⟩, ?_⟩
  · exact mem_tinsert_self _ _ _
  · show lexLt (r.bytes ++ [255] ++ be8 (0 + 1))
      (r.bytes ++ [255] ++ be8 (s.global + 1) ++ 255 :: u.bytes) = true
    exact lexLt_scan_start (r.bytes ++ [255]) (255 :: u.bytes) (by omega) hg (by simp)
  · show startsWith (r.bytes ++ [255])
      (r.bytes ++ [255] ++ be8 (s.global + 1) ++ 255 :: u.bytes) = true
    exact startsWith_iff.mpr ((List.prefix_append _ _).trans (List.prefix_append _ _))

/-- Sequential `room_userdata_update` calls (data.rs lines 863-928) keep the
account-data tree sorted and advance the counter once per call. -/
theorem userdata_fold_inv (rm : Option RoomId) (u : UserId) :
    ∀ (evs : List EduEvent) (s : Data),
      TreeSorted s.roomuserdataid_accountdata →
      TreeSorted ((evs.foldl (fun st e => room_userdata_update st rm u e)
          s).roomuserdataid_accountdata) ∧
        (evs.foldl (fun st e => room_userdata_update st rm u e) s).global =
          s.global + evs.length := by
  intro evs
  induction evs with
  | nil => intro s h1; exact ⟨h1, by simp⟩
  | cons e es ih =>
    intro s h1
    have h2 : TreeSorted (room_userdata_update s rm u e).roomuserdataid_accountdata :=
      tinsert_sorted (slotRemove_sorted h1) _ _
    simp only [List.foldl_cons, List.length_cons]
    obtain ⟨ia, ib⟩ := ih (room_userdata_update s rm u e) h2
    refine ⟨ia, ?_⟩
    rw [ib]
    show s.global + 1 + es.length = s.global + (es.length + 1)
    omega

/-- `mapInsert` binding count per key: inserting a key leaves exactly one
binding for it (given at most one before); any other key's count is
untouched. -/
theorem countP_mapInsert {K V : Type} [DecidableEq K] :
    ∀ (m : List (K × V)) (k : K) (v : V) (ty : K),
      m.countP (fun b => decide (b.1 = ty)) ≤ 1 →
      (mapInsert m k v).countP (fun b => decide (b.1 = ty)) =
        if k = ty then 1 else m.countP (fun b => decide (b.1 = ty)) := by
  intro m
  induction m with
  | nil =>
    intro k v ty _
    by_cases hk : k = ty <;> simp [mapInsert, List.countP_cons, hk]
  | cons e rest ih =>
    intro k v ty h
    obtain ⟨k', v'⟩ := e
    rw [List.countP_cons] at h
    rw [mapInsert]
    by_cases he : k' = k
    · rw [if_pos he]
      rw [List.countP_cons, List.countP_cons]
      by_cases hk : k = ty
      · have hk2 : k' = ty := he.trans hk
        have h0 : rest.countP (fun b => decide (b.1 = ty)) = 0 := by
          rw [hk2] at h
          simp at h
          refine List.countP_eq_zero.mpr ?_
          intro b hb
          have hb2 := h b.1 b.2 (by rw [Prod.mk.eta]; exact hb)
          simpa using hb2
        simp [hk, h0]
      · have hk' : ¬ k' = ty := fun hc => hk (he ▸ hc)
        simp [hk, hk']
    · rw [if_neg he]
      rw [List.countP_cons, List.countP_cons]
      have hr : rest.countP (fun b => decide (b.1 = ty)) ≤ 1 :=
        Nat.le_trans (Nat.le_add_right _ _) h
      rw [ih k v ty hr]
      by_cases hk : k = ty
      · have hk' : ¬ k' = ty := fun hc => he (hc.trans hk.symm)
        simp [hk, hk']
      · rw [if_neg hk, if_neg hk]

/-- Folding scanned values into the type-keyed map of `room_userdata_since`:
each type ends with exactly one binding when some folded value carries that
type, and with the prior count otherwise. -/
theorem countP_etype_fold (ty : Bytes) :
    ∀ (vals : List EduEvent) (m : List (Bytes × EduEvent)),
      m.countP (fun b => decide (b.1 = ty)) ≤ 1 →
      ((vals.foldl (fun m v => mapInsert m (EduEvent.etypeOf v) v) m).countP
          (fun b => decide (b.1 = ty))) =
        if vals.any (fun v => decide (EduEvent.etypeOf v = ty)) then 1
        else m.countP (fun b => decide (b.1 = ty)) := by
  intro vals
  induction vals with
  | nil => intro m _; simp
  | cons v vs ih =>
    intro m h
    simp only [List.foldl_cons, List.any_cons]
    have h1 : (mapInsert m (EduEvent.etypeOf v) v).countP (fun b => decide (b.1 = ty)) =
        if EduEvent.etypeOf v = ty then 1 else m.countP (fun b => decide (b.1 = ty)) :=
      countP_mapInsert m (EduEvent.etypeOf v) v ty h
    have h2 : (mapInsert m (EduEvent.etypeOf v) v).countP (fun b => decide (b.1 = ty)) ≤ 1 := by
      rw [h1]
      by_cases hv : EduEvent.etypeOf v = ty
      · rw [if_pos hv]
      · rw [if_neg hv]; exact h
    rw [ih _ h2, h1]
    by_cases hv : EduEvent.etypeOf v = ty
    · simp [hv]
    · simp [hv]

/-- After one `room_userdata_update`, the fresh slot's payload is among the
values scanned by the scope's `all` readout. -/
theorem userdata_update_all_scan {s : Data} (rm : Option RoomId) (u : UserId) (ev : EduEvent)
    (hs : TreeSorted s.roomuserdataid_accountdata)
    (hg : s.global + 1 < 2 ^ 64) (hty0 : EduEvent.etypeOf ev ≠ []) :
    ev ∈ gtScan (room_userdata_update s rm u ev).roomuserdataid_accountdata
      (userdataPre rm u)
      ((room_userdata_update s rm u ev).roomuserdataid_accountdata.length)
      (userdataPre rm u ++ be8 (0 + 1)) := by
  have hs2 : TreeSorted (room_userdata_update s rm u ev).roomuserdataid_accountdata :=
    tinsert_sorted (slotRemove_sorted hs) _ _
  have hpre : userdataPre rm u <+: userdataPre rm u ++ be8 (0 + 1) :=
    List.prefix_append _ _
  have hscan := gtScan_eq hs2
    ((room_userdata_update s rm u ev).roomuserdataid_accountdata.length)
    (userdataPre rm u ++ be8 (0 + 1)) hpre
    ((List.filter_sublist _).length_le)
  rw [hscan]
  refine List.mem_map.mpr
    ⟨(userdataPre rm u ++ be8 (s.global + 1) ++ EduEvent.etypeOf ev, ev), ?_, rfl⟩
  refine List.mem_filter.mpr ⟨List.mem_filter.mpr ⟨?_, ?_⟩, ?_⟩
  · exact mem_tinsert_self _ _ _
  · show lexLt (userdataPre rm u ++ be8 (0 + 1))
      (userdataPre rm u ++ be8 (s.global + 1) ++ EduEvent.etypeOf ev) = true
    exact lexLt_scan_start (userdataPre rm u) (EduEvent.etypeOf ev) (by omega) hg hty0
  · show startsWith (userdataPre rm u)
      (userdataPre rm u ++ be8 (s.global + 1) ++ EduEvent.etypeOf ev) = true
    exact startsWith_iff.mpr ((List.prefix_append _ _).trans (List.prefix_append _ _))

/-- After one `room_userdata_update`, the scope's `room_userdata_all` map
holds exactly one binding for the written item type. -/
theorem userdata_update_all_count {s : Data} {rm : Option RoomId} {u : UserId} (dev : EduEvent)
    (hs : TreeSorted s.roomuserdataid_accountdata)
    (hg : s.global + 1 < 2 ^ 64) (hty0 : EduEvent.etypeOf dev ≠ []) :
    (room_userdata_all (room_userdata_update s rm u dev) rm u).countP
      (fun b => decide (b.1 = EduEvent.etypeOf dev)) = 1 := by
  have hmem := userdata_update_all_scan rm u dev hs hg hty0
  show ((gtScan (room_userdata_update s rm u dev).roomuserdataid_accountdata
      (userdataPre rm u)
      ((room_userdata_update s rm u dev).roomuserdataid_accountdata.length)
      (userdataPre rm u ++ be8 (0 + 1))).foldl
      (fun m v => mapInsert m (EduEvent.etypeOf v) v) []).countP
      (fun b => decide (b.1 = EduEvent.etypeOf dev)) = 1
  rw [countP_etype_fold (EduEvent.etypeOf dev) _ [] (by simp)]
  rw [if_pos (List.any_eq_true.mpr ⟨dev, hmem, by simp⟩)]

/-- **C3.** For every ephemeral-slot scope and subject — read receipts
(scope the room, subject the user id, via `roomlatest_update`) and account
data (scope room plus user, subject the item type, via
`room_userdata_update`) — after `N ≥ 1` sequential update calls for the same
scope and subject, exactly one live slot exists for that subject in the
`all(scope)` readout: the receipt tree holds exactly one slot keyed to the
user and its payload is listed by `roomlatests_all`, and `room_userdata_all`
holds exactly one binding for the item type. -/
theorem ephemeral_single_slot
    (s0 : Data) (u : UserId) (r : RoomId) (rm : Option RoomId)
    (revs : List EduEvent) (rev : EduEvent) (devs : List EduEvent) (dev : EduEvent)
    (hu : (255 : Nat) ∉ u.bytes)
    (hsR : TreeSorted s0.roomlatestid_roomlatest)
    (hcnt : keyCount s0.roomlatestid_roomlatest (receiptSlotP r u) ≤ 1)
    (hgR : s0.global + revs.length + 1 < 2 ^ 64)
    (hsD : TreeSorted s0.roomuserdataid_accountdata)
    (hgD : s0.global + devs.length + 1 < 2 ^ 64)
    (hty : ∀ e ∈ devs, EduEvent.etypeOf e = EduEvent.etypeOf dev)
    (hty0 : EduEvent.etypeOf dev ≠ []) :
    (keyCount (((revs ++ [rev]).foldl (fun st e => roomlatest_update st u r e)
          s0).roomlatestid_roomlatest) (receiptSlotP r u) = 1 ∧
      rev ∈ roomlatests_all
        ((revs ++ [rev]).foldl (fun st e => roomlatest_update st u r e) s0) r) ∧
      (room_userdata_all ((devs ++ [dev]).foldl (fun st e => room_userdata_update st rm u e) s0)
          rm u).countP (fun b => decide (b.1 = EduEvent.etypeOf dev)) = 1 := by
  obtain ⟨ha, hb, hc⟩ := roomlatest_fold_inv u r hu revs s0 hsR hcnt
  obtain ⟨da, db⟩ := userdata_fold_inv rm u devs s0 hsD
  rw [List.foldl_append, List.foldl_append]
  simp only [List.foldl_cons, List.foldl_nil]
  refine ⟨⟨?_, ?_⟩, ?_⟩
  · exact (roomlatest_update_step rev hu ha hb).2.1
  · exact roomlatest_update_all_mem rev ha (by rw [hc]; exact hgR)
  · exact userdata_update_all_count dev da (by rw [db]; exact hgD) hty0

theorem ephemeral_single_slot_witness :
    (keyCount ((([EduEvent.typing []] ++ [EduEvent.typing [wAlice]]).foldl
          (fun st e => roomlatest_update st wAlice wRoom e) wEmpty).roomlatestid_roomlatest)
        (receiptSlotP wRoom wAlice) = 1 ∧
      EduEvent.typing [wAlice] ∈ roomlatests_all
        (([EduEvent.typing []] ++ [EduEvent.typing [wAlice]]).foldl
          (fun st e => roomlatest_update st wAlice wRoom e) wEmpty) wRoom) ∧
      (room_userdata_all (([EduEvent.other (strBytes "m.tag") (strBytes "y")] ++
            [EduEvent.other (strBytes "m.tag") (strBytes "x")]).foldl
          (fun st e => room_userdata_update st (some wRoom) wAlice e) wEmpty)
          (some wRoom) wAlice).countP
        (fun b => decide (b.1 =
          EduEvent.etypeOf (EduEvent.other (strBytes "m.tag") (strBytes "x")))) = 1 :=
  ephemeral_single_slot wEmpty wAlice wRoom (some wRoom)
    [EduEvent.typing []] (EduEvent.typing [wAlice])
    [EduEvent.other (strBytes "m.tag") (strBytes "y")]
    (EduEvent.other (strBytes "m.tag") (strBytes "x"))
    (by decide) (by decide) (by decide) (by decide) (by decide) (by decide)
    (by decide) (by decide)

end Conduit